import Mathlib

/-!
Verification development for the Sui-Circle frontend repository.

This file shallowly embeds the parts of the TypeScript source that the
specification's testable properties talk about:

* the client-side Seal encryption adapter (`sealEncryptionService.ts`):
  `encryptFile` / `decryptFile` and their private helpers, including the mock
  JSON-envelope transform, modelled down to `JSON.stringify` / `JSON.parse`
  and `TextEncoder` / `TextDecoder`;
* the access-control service (`accessControlService.ts`): `validateAccessRule`,
  `isValidEmail`, `isValidSuiNS`, `parseBulkData`;
* the file service (`fileService.ts`): `getUserFiles`, `uploadFile`,
  `clearUserFiles`, `deleteFile`, `downloadSharedFile`;
* the upload orchestrator `uploadSingleFile` (`FileUpload.tsx`).

Browser / platform primitives (fetch, `File.arrayBuffer`, headers, JSON,
UTF-8 codecs, string methods) are modelled explicitly; network and file I/O
nondeterminism is passed in as explicit outcome parameters.  Byte sequences
are `List Nat` (each element `< 256` where it comes from a `Uint8Array`),
strings at the JS level are `String` or `List Char`.
-/

/-! ## JavaScript string and whitespace primitives -/

/-- The character set matched by JavaScript's `\s` (and trimmed by
`String.prototype.trim`): tab, LF, VT, FF, CR, space, NBSP, Ogham space,
the U+2000–U+200A range, LS, PS, NNBSP, MMSP, ideographic space, and BOM. -/
def jsWs (c : Char) : Bool :=
  c.toNat == 9 || c.toNat == 10 || c.toNat == 11 || c.toNat == 12 ||
  c.toNat == 13 || c.toNat == 32 || c.toNat == 160 || c.toNat == 0x1680 ||
  (0x2000 ≤ c.toNat && c.toNat ≤ 0x200a) || c.toNat == 0x2028 ||
  c.toNat == 0x2029 || c.toNat == 0x202f || c.toNat == 0x205f ||
  c.toNat == 0x3000 || c.toNat == 0xfeff

/-- `String.prototype.trim` on a character list: strip `jsWs` from both ends. -/
def jsTrim (cs : List Char) : List Char :=
  ((cs.dropWhile jsWs).reverse.dropWhile jsWs).reverse

/-- `String.prototype.split` with a single-character separator.  Like JS,
splitting the empty string yields `[""]` and empty segments are kept. -/
def splitOnChar (sep : Char) : List Char → List (List Char)
  | [] => [[]]
  | c :: cs =>
    let r := splitOnChar sep cs
    if c = sep then [] :: r
    else
      match r with
      | h :: t => (c :: h) :: t
      | [] => [[c]]

/-- Does `pat` occur at the start of `s`? -/
def leadsWith : List Char → List Char → Bool
  | [], _ => true
  | _ :: _, [] => false
  | p :: ps, c :: cs => p == c && leadsWith ps cs

/-- Substring test: does `pat` occur anywhere in `s`? -/
def hasSub (pat : List Char) (s : List Char) : Bool :=
  leadsWith pat s ||
    match s with
    | [] => false
    | _ :: t => hasSub pat t

/-- The characters of `s` strictly after the first occurrence of `pat`
(`none` when `pat` does not occur). -/
def afterFirst (pat : List Char) (s : List Char) : Option (List Char) :=
  if leadsWith pat s then some (s.drop pat.length)
  else
    match s with
    | [] => none
    | _ :: t => afterFirst pat t

/-- Index of the last occurrence of `c` in `s`. -/
def lastIdxOf (c : Char) : List Char → Option Nat
  | [] => none
  | x :: t =>
    match lastIdxOf c t with
    | some i => some (i + 1)
    | none => if x == c then some 0 else none

/-- JS `a || b` for an optional string `a` against a default: `undefined`
and the empty string are falsy. -/
def jsOrStr (a : Option String) (b : String) : String :=
  match a with
  | some s => if s = "" then b else s
  | none => b

/-! ## JSON values

`JSON.parse` / `JSON.stringify` and untyped property access are modelled
over this value type.  It is a genuinely mutual inductive (rather than
nesting `List`) so that structural mutual recursion and induction are
available.  JSON strings are carried as `List Char`.  Numbers are `Int`:
the encryption envelope and the backend bodies the claims mention only
contain integers, so fractional JSON numbers are out of scope (the parser
below rejects them, a strict subset of real `JSON.parse`). -/

mutual

inductive Json where
  | null : Json
  | bool : Bool → Json
  | num : Int → Json
  | str : List Char → Json
  | arr : JsonArr → Json
  | obj : JsonObj → Json

inductive JsonArr where
  | nil : JsonArr
  | cons : Json → JsonArr → JsonArr

inductive JsonObj where
  | nil : JsonObj
  | cons : List Char → Json → JsonObj → JsonObj

end

/-- The `\x7b` character. -/
def lbrace : Char := Char.ofNat 123

/-- The `\x7d` character. -/
def rbrace : Char := Char.ofNat 125

def JsonArr.ofList : List Json → JsonArr
  | [] => .nil
  | x :: xs => .cons x (JsonArr.ofList xs)

def JsonArr.toList : JsonArr → List Json
  | .nil => []
  | .cons x xs => x :: JsonArr.toList xs

def JsonArr.headO : JsonArr → Option Json
  | .nil => none
  | .cons x _ => some x

/-- Object member lookup.  `JSON.parse` keeps the last of duplicate keys, so
lookup prefers the rightmost binding. -/
def lookupO : JsonObj → List Char → Option Json
  | .nil, _ => none
  | .cons k v tl, key =>
    match lookupO tl key with
    | some r => some r
    | none => if k == key then some v else none

/-! ## JSON.stringify -/

/-- Decimal digit characters. -/
def digitChar10 : Nat → Char
  | 0 => '0' | 1 => '1' | 2 => '2' | 3 => '3' | 4 => '4'
  | 5 => '5' | 6 => '6' | 7 => '7' | 8 => '8' | _ => '9'

def natToCharsAux (n : Nat) (acc : List Char) : List Char :=
  if h : n < 10 then digitChar10 n :: acc
  else natToCharsAux (n / 10) (digitChar10 (n % 10) :: acc)
  decreasing_by exact Nat.div_lt_self (by omega) (by omega)

/-- Decimal rendering of a natural number, as JS renders integral numbers. -/
def natToChars (n : Nat) : List Char := natToCharsAux n []

/-- Decimal rendering of an integer. -/
def intToChars (i : Int) : List Char :=
  if i < 0 then '-' :: natToChars (-i).toNat else natToChars i.toNat

def hexDigit (n : Nat) : Char :=
  if n < 10 then digitChar10 n
  else if n == 10 then 'a' else if n == 11 then 'b' else if n == 12 then 'c'
  else if n == 13 then 'd' else if n == 14 then 'e' else 'f'

/-- `JSON.stringify` string escaping for one character: quote and backslash
are escaped, the named control escapes are used where they exist, all other
control characters become `\u00XX`, and everything else passes through. -/
def escChar (c : Char) : List Char :=
  if c = '"' then ['\\', '"']
  else if c = '\\' then ['\\', '\\']
  else if c.toNat == 8 then ['\\', 'b']
  else if c = '\t' then ['\\', 't']
  else if c = '\n' then ['\\', 'n']
  else if c.toNat == 12 then ['\\', 'f']
  else if c.toNat == 13 then ['\\', 'r']
  else if c.toNat < 32 then
    ['\\', 'u', '0', '0', hexDigit (c.toNat / 16), hexDigit (c.toNat % 16)]
  else [c]

def escapeChars (s : List Char) : List Char := s.flatMap escChar

mutual

/-- `JSON.stringify` (no spacing), over the `Json` model. -/
def encJ : Json → List Char
  | .null => ['n', 'u', 'l', 'l']
  | .bool b => if b then ['t', 'r', 'u', 'e'] else ['f', 'a', 'l', 's', 'e']
  | .num i => intToChars i
  | .str s => '"' :: (escapeChars s ++ ['"'])
  | .arr a => '[' :: (encA a ++ [']'])
  | .obj ms => lbrace :: (encO ms ++ [rbrace])

/-- Comma-separated rendering of array elements. -/
def encA : JsonArr → List Char
  | .nil => []
  | .cons x .nil => encJ x
  | .cons x (JsonArr.cons y tl) => encJ x ++ ',' :: encA (JsonArr.cons y tl)

/-- Comma-separated rendering of object members. -/
def encO : JsonObj → List Char
  | .nil => []
  | .cons k v .nil => '"' :: (escapeChars k ++ ['"', ':']) ++ encJ v
  | .cons k v (JsonObj.cons k2 v2 tl) =>
    ('"' :: (escapeChars k ++ ['"', ':']) ++ encJ v) ++
      ',' :: encO (JsonObj.cons k2 v2 tl)

end

/-! ## JSON.parse

A recursive-descent parser over `List Char`, fueled for totality.  It covers
objects, arrays, strings with the single-character escapes, `null`, booleans,
and integer numbers.  (`\uXXXX` escapes and fractional/exponent numbers are
rejected; the pipeline under verification never produces them.) -/

def isJsonWs (c : Char) : Bool :=
  c = ' ' || c = '\t' || c = '\n' || c = '\r'

def skipWs (cs : List Char) : List Char := cs.dropWhile isJsonWs

/-- Inverse of the single-character escapes. -/
def unescChar (c : Char) : Option Char :=
  if c = '"' then some '"'
  else if c = '\\' then some '\\'
  else if c = '/' then some '/'
  else if c = 'b' then some (Char.ofNat 8)
  else if c = 'f' then some (Char.ofNat 12)
  else if c = 'n' then some '\n'
  else if c = 'r' then some '\r'
  else if c = 't' then some '\t'
  else none

/-- Parse a string body (after the opening quote) up to the closing quote. -/
def parseStringBody : List Char → Option (List Char × List Char)
  | [] => none
  | c :: cs =>
    if c = '"' then some ([], cs)
    else if c = '\\' then
      match cs with
      | [] => none
      | e :: cs2 =>
        match unescChar e with
        | none => none
        | some u =>
          match parseStringBody cs2 with
          | none => none
          | some (s, r) => some (u :: s, r)
    else if c.toNat < 32 then none
    else
      match parseStringBody cs with
      | none => none
      | some (s, r) => some (c :: s, r)

/-- Consume a maximal run of digits, most-significant first, onto `acc`. -/
def digitsGo : List Char → Nat → Nat × List Char
  | [], acc => (acc, [])
  | c :: cs, acc =>
    if c.isDigit then digitsGo cs (acc * 10 + (c.toNat - 48))
    else (acc, c :: cs)

/-- Parse an (optionally negated) integer literal. -/
def parseNumber (cs : List Char) : Option (Int × List Char) :=
  match cs with
  | [] => none
  | c :: rest =>
    if c = '-' then
      match rest with
      | [] => none
      | d :: _ =>
        if d.isDigit then
          let p := digitsGo rest 0
          some (-(p.1 : Int), p.2)
        else none
    else if c.isDigit then
      let p := digitsGo (c :: rest) 0
      some ((p.1 : Int), p.2)
    else none

/-- Match the literal characters `lit` at the head of `cs`. -/
def afterLit : List Char → List Char → Option (List Char)
  | [], cs => some cs
  | _ :: _, [] => none
  | l :: ls, c :: cs => if c = l then afterLit ls cs else none

mutual

/-- Parse one JSON value.  Fuel decreases on every mutual call. -/
def parseValue : Nat → List Char → Option (Json × List Char)
  | 0, _ => none
  | f + 1, cs =>
    match skipWs cs with
    | [] => none
    | c :: rest =>
      if c = '"' then
        match parseStringBody rest with
        | none => none
        | some (s, r) => some (.str s, r)
      else if c = '[' then
        match skipWs rest with
        | [] => none
        | d :: r =>
          if d = ']' then some (.arr .nil, r)
          else
            match parseElems f rest with
            | none => none
            | some (a, r2) => some (.arr a, r2)
      else if c = lbrace then
        match skipWs rest with
        | [] => none
        | d :: _ =>
          if d = rbrace then some (.obj .nil, (skipWs rest).tail)
          else
            match parseMembers f rest with
            | none => none
            | some (ms, r2) => some (.obj ms, r2)
      else if c = 't' then
        match afterLit ['r', 'u', 'e'] rest with
        | none => none
        | some r => some (.bool true, r)
      else if c = 'f' then
        match afterLit ['a', 'l', 's', 'e'] rest with
        | none => none
        | some r => some (.bool false, r)
      else if c = 'n' then
        match afterLit ['u', 'l', 'l'] rest with
        | none => none
        | some r => some (.null, r)
      else if c.isDigit || c = '-' then
        match parseNumber (c :: rest) with
        | none => none
        | some (i, r) => some (.num i, r)
      else none

/-- Parse one or more comma-separated elements and the closing bracket. -/
def parseElems : Nat → List Char → Option (JsonArr × List Char)
  | 0, _ => none
  | f + 1, cs =>
    match parseValue f cs with
    | none => none
    | some (v, r) =>
      match skipWs r with
      | [] => none
      | d :: r2 =>
        if d = ',' then
          match parseElems f r2 with
          | none => none
          | some (a, r3) => some (.cons v a, r3)
        else if d = ']' then some (.cons v .nil, r2)
        else none

/-- Parse one or more `"key": value` members and the closing brace. -/
def parseMembers : Nat → List Char → Option (JsonObj × List Char)
  | 0, _ => none
  | f + 1, cs =>
    match skipWs cs with
    | [] => none
    | c :: rest =>
      if c = '"' then
        match parseStringBody rest with
        | none => none
        | some (k, r1) =>
          match skipWs r1 with
          | [] => none
          | d :: r2 =>
            if d = ':' then
              match parseValue f r2 with
              | none => none
              | some (v, r3) =>
                match skipWs r3 with
                | [] => none
                | e :: r4 =>
                  if e = ',' then
                    match parseMembers f r4 with
                    | none => none
                    | some (ms, r5) => some (.cons k v ms, r5)
                  else if e = rbrace then some (.cons k v .nil, r4)
                  else none
            else none
      else none

end

/-- `JSON.parse`: parse one value and require only whitespace after it. -/
def jsonParse (cs : List Char) : Option Json :=
  match parseValue (cs.length + 1) cs with
  | none => none
  | some (j, rest) => if skipWs rest = [] then some j else none

/-! ## TextEncoder / TextDecoder -/

/-- UTF-8 encoding of one scalar value. -/
def utf8EncodeChar (c : Char) : List Nat :=
  let n := c.toNat
  if n < 0x80 then [n]
  else if n < 0x800 then [0xc0 + n / 64, 0x80 + n % 64]
  else if n < 0x10000 then
    [0xe0 + n / 4096, 0x80 + n / 64 % 64, 0x80 + n % 64]
  else
    [0xf0 + n / 262144, 0x80 + n / 4096 % 64, 0x80 + n / 64 % 64, 0x80 + n % 64]

/-- `new TextEncoder().encode`. -/
def utf8Encode (cs : List Char) : List Nat := cs.flatMap utf8EncodeChar

def isCont (b : Nat) : Bool := 0x80 ≤ b && b ≤ 0xbf

/-- The U+FFFD replacement character. -/
def replChar : Char := Char.ofNat 0xfffd

/-- Is `b2` a valid second byte after lead byte `b` (WHATWG UTF-8 ranges,
which exclude overlongs and surrogates)? -/
def validSecond (b b2 : Nat) : Bool :=
  if b == 0xe0 then 0xa0 ≤ b2 && b2 ≤ 0xbf
  else if b == 0xed then 0x80 ≤ b2 && b2 ≤ 0x9f
  else if b == 0xf0 then 0x90 ≤ b2 && b2 ≤ 0xbf
  else if b == 0xf4 then 0x80 ≤ b2 && b2 ≤ 0x8f
  else isCont b2

/-- Decode one code point starting at lead byte `b` with lookahead `bs`:
returns the decoded character (U+FFFD on malformed input) and how many
continuation bytes were consumed. -/
def utf8Step (b : Nat) (bs : List Nat) : Char × Nat :=
  if b < 0x80 then (Char.ofNat b, 0)
  else if 0xc2 ≤ b && b ≤ 0xdf then
    match bs with
    | b2 :: _ =>
      if isCont b2 then (Char.ofNat ((b - 0xc0) * 64 + (b2 - 0x80)), 1)
      else (replChar, 0)
    | [] => (replChar, 0)
  else if 0xe0 ≤ b && b ≤ 0xef then
    match bs with
    | b2 :: b3 :: _ =>
      if validSecond b b2 then
        if isCont b3 then
          (Char.ofNat ((b - 0xe0) * 4096 + (b2 - 0x80) * 64 + (b3 - 0x80)), 2)
        else (replChar, 1)
      else (replChar, 0)
    | [b2] => if validSecond b b2 then (replChar, 1) else (replChar, 0)
    | [] => (replChar, 0)
  else if 0xf0 ≤ b && b ≤ 0xf4 then
    match bs with
    | b2 :: b3 :: b4 :: _ =>
      if validSecond b b2 then
        if isCont b3 then
          if isCont b4 then
            (Char.ofNat ((b - 0xf0) * 262144 + (b2 - 0x80) * 4096 +
                (b3 - 0x80) * 64 + (b4 - 0x80)), 3)
          else (replChar, 2)
        else (replChar, 1)
      else (replChar, 0)
    | [b2, b3] =>
      if validSecond b b2 then
        if isCont b3 then (replChar, 2) else (replChar, 1)
      else (replChar, 0)
    | [b2] => if validSecond b b2 then (replChar, 1) else (replChar, 0)
    | [] => (replChar, 0)
  else (replChar, 0)

/-- `new TextDecoder().decode` in its default (non-fatal) mode: a total
WHATWG UTF-8 decoder that substitutes U+FFFD for malformed subsequences. -/
def utf8DecodeReplace (l : List Nat) : List Char :=
  match l with
  | [] => []
  | b :: bs =>
    let s := utf8Step b bs
    s.1 :: utf8DecodeReplace (bs.drop s.2)
  termination_by l.length
  decreasing_by simp only [List.length_cons, List.length_drop]; omega

/-! ## Seal encryption service (`sealEncryptionService.ts`)

`initialize()` can only reach its outer catch through a console failure: the
inner catch around the dynamic import installs the mock library, so after
`await initialize()` the service is initialized and readiness reduces to the
`isReady()` flag, which the models below take as an explicit argument.
`File.arrayBuffer()` is the one other effect in `encryptFile`; its outcome is
the `fileRead` argument.  `_generateKeyPair` builds its key id from
`Date.now().toString(36) + Math.random().toString(36).substr(2)`; that
nondeterministic base-36 string is the `keyId` argument. -/

structure EncMetadata where
  originalSize : Nat
  encryptionAlgorithm : String
  timestamp : Nat
deriving Repr, DecidableEq

structure EncryptionResult where
  success : Bool
  encryptedData : Option (List Nat) := none
  publicKey : Option (List Char) := none
  secretKey : Option (List Char) := none
  error : Option String := none
  metadata : Option EncMetadata := none

structure DecryptionResult where
  success : Bool
  decryptedData : Option (List Nat) := none
  error : Option String := none

/-- Value of a digit string (used by the `ToNumber` approximation below). -/
def digitsVal (s : List Char) : Nat := (digitsGo s 0).1

/-- JS `ToUint8` of an element of the array passed to `new Uint8Array(...)`:
numbers are taken mod 2^8; booleans coerce to 0/1; digit-only strings to
their value (other strings coerce through NaN to 0 — non-integral numeric
strings are approximated by 0 here); everything else to 0. -/
def toUint8 : Json → Nat
  | .num i => (i % 256).toNat
  | .bool b => if b then 1 else 0
  | .str s => if !s.isEmpty && s.all (·.isDigit) then digitsVal s % 256 else 0
  | _ => 0

/-- JS property access `v.key` on a parsed JSON value: throws (TypeError) on
`null`, yields the member on objects, `undefined` (`none`) otherwise. -/
def jsProp (j : Json) (key : List Char) : Except String (Option Json) :=
  match j with
  | .null => .error ("TypeError: cannot read properties of null")
  | .obj ms => .ok (lookupO ms key)
  | _ => .ok none

/-- JS indexing `v[0]` where `v` may be `undefined`: throws on `undefined`
and `null`; arrays yield their head, objects their member at key `"0"`,
strings their first character; numbers and booleans yield `undefined`. -/
def jsIndex0 (v : Option Json) : Except String (Option Json) :=
  match v with
  | none => .error ("TypeError: cannot read properties of undefined")
  | some .null => .error ("TypeError: cannot read properties of null")
  | some (.arr a) => .ok a.headO
  | some (.obj ms) => .ok (lookupO ms ['0'])
  | some (.str s) =>
    .ok (match s with
         | [] => none
         | c :: _ => some (.str [c]))
  | some _ => .ok none

/-- JS `new Uint8Array(v)`: arrays map their elements through `ToUint8`;
non-object arguments are treated as a length (`ToIndex`), throwing
RangeError when negative, with non-numeric coercions approximated by 0;
plain objects (no iterator, no numeric `length` modelled) give an empty
array. -/
def jsNewUint8Array (v : Option Json) : Except String (List Nat) :=
  match v with
  | none => .ok []
  | some .null => .ok []
  | some (.bool b) => .ok (if b then [0] else [])
  | some (.num i) =>
    if i < 0 then .error ("RangeError: invalid typed array length")
    else .ok (List.replicate i.toNat 0)
  | some (.str s) =>
    .ok (List.replicate (if !s.isEmpty && s.all (·.isDigit) then digitsVal s else 0) 0)
  | some (.arr a) => .ok (a.toList.map toUint8)
  | some (.obj _) => .ok []

/-- A JSON number from a byte value (`Array.from(data)` elements). -/
def jnum (x : Nat) : Json := Json.num (Int.ofNat x)

/-- The mock encryption envelope built by `_encryptData`
(sealEncryptionService.ts:239-246), with object keys in insertion order. -/
def sealEnvelope (data : List Nat) (publicKey : List Char) (timestamp : Nat) : Json :=
  Json.obj
    (JsonObj.cons ("algorithm".data) (Json.str ("Seal-BFV".data))
      (JsonObj.cons ("publicKey".data) (Json.str publicKey)
        (JsonObj.cons ("originalSize".data) (Json.num (data.length : Int))
          (JsonObj.cons ("timestamp".data) (Json.num (timestamp : Int))
            (JsonObj.cons ("encryptedChunks".data)
              (Json.arr (JsonArr.cons
                (Json.arr (JsonArr.ofList (data.map jnum)))
                JsonArr.nil))
              JsonObj.nil)))))

/-- `_generateKeyPair` (sealEncryptionService.ts:197-224): prefixes the
base-36 `keyId` to form the mock public and secret keys.  Its try/catch can
never fire, so it always succeeds. -/
def _generateKeyPair (keyId : List Char) : List Char × List Char :=
  (("seal_public_".data) ++ keyId, ("seal_secret_".data) ++ keyId)

/-- `_encryptData` (sealEncryptionService.ts:229-261): `JSON.stringify` the
mock envelope and UTF-8 encode it with `TextEncoder`.  The try/catch can
never fire for this value, so the model returns the bytes directly. -/
def _encryptData (data : List Nat) (publicKey : List Char) (timestamp : Nat) : List Nat :=
  utf8Encode (encJ (sealEnvelope data publicKey timestamp))

/-- `_decryptData` (sealEncryptionService.ts:266-291): `TextDecoder` the
bytes, `JSON.parse` them, read `metadata.encryptedChunks[0]`, and rebuild a
`Uint8Array` from it.  Every step that can throw in JS is an `Except.error`
here, matching the function's catch. -/
def _decryptData (encryptedData : List Nat) : Except String (List Nat) :=
  let metadataJson := utf8DecodeReplace encryptedData
  match jsonParse metadataJson with
  | none => .error ("Unexpected token in JSON")
  | some metadata =>
    match jsProp metadata ("encryptedChunks".data) with
    | .error e => .error e
    | .ok chunks =>
      match jsIndex0 chunks with
      | .error e => .error e
      | .ok elem0 => jsNewUint8Array elem0

/-- `encryptFile` (sealEncryptionService.ts:94-151).  `isReady` is the
service readiness after `await initialize()`; `fileRead` the outcome of
`file.arrayBuffer()` (its rejection lands in the outer catch); `keyId` the
generated key id; `now` the `Date.now()` timestamp.  A `File`'s `size`
equals the length of the bytes its `arrayBuffer` yields. -/
def encryptFile (isReady : Bool) (fileRead : Except String (List Nat))
    (keyId : List Char) (now : Nat) : EncryptionResult :=
  if !isReady then
    { success := false, error := some ("Seal encryption service not ready") }
  else
    match fileRead with
    | .error e => { success := false, error := some e }
    | .ok fileData =>
      let keys := _generateKeyPair keyId
      let encryptedData := _encryptData fileData keys.1 now
      { success := true
        encryptedData := some encryptedData
        publicKey := some keys.1
        secretKey := some keys.2
        metadata := some { originalSize := fileData.length
                           encryptionAlgorithm := "Seal-BFV"
                           timestamp := now } }

/-- `decryptFile` (sealEncryptionService.ts:156-192).  The secret key
parameter is declared `_secretKey` in the source and never used. -/
def decryptFile (isReady : Bool) (encryptedData : List Nat)
    (_secretKey : String) : DecryptionResult :=
  if !isReady then
    { success := false, error := some ("Seal encryption service not ready") }
  else
    match _decryptData encryptedData with
    | .error e => { success := false, error := some ("Failed to decrypt data: " ++ e) }
    | .ok d => { success := true, decryptedData := some d }

/-! ## Round-trip infrastructure for the mock envelope

`plainChar` picks out printable ASCII that `JSON.stringify` leaves
unescaped; values built from such strings render and re-parse exactly. -/

def plainChar (c : Char) : Bool :=
  32 ≤ c.toNat && c.toNat < 127 && c != '"' && c != '\\'

mutual

/-- All strings (including object keys) consist of `plainChar`s, and the
value contains no `null`/`bool` leaves (the envelope has none). -/
def plainJ : Json → Bool
  | .null => false
  | .bool _ => false
  | .num _ => true
  | .str s => s.all plainChar
  | .arr a => plainA a
  | .obj ms => plainO ms

def plainA : JsonArr → Bool
  | .nil => true
  | .cons x tl => plainJ x && plainA tl

def plainO : JsonObj → Bool
  | .nil => true
  | .cons k v tl => k.all plainChar && plainJ v && plainO tl

end

mutual

/-- Fuel cost of parsing a rendered value. -/
def sizeJ : Json → Nat
  | .null => 1
  | .bool _ => 1
  | .num _ => 1
  | .str _ => 1
  | .arr a => 1 + sizeA a
  | .obj ms => 1 + sizeO ms

def sizeA : JsonArr → Nat
  | .nil => 0
  | .cons x tl => sizeJ x + 1 + sizeA tl

def sizeO : JsonObj → Nat
  | .nil => 0
  | .cons _ v tl => sizeJ v + 1 + sizeO tl

end

/-- 10 to the number of decimal digits of `n`. -/
def pow10 (n : Nat) : Nat :=
  if h : n < 10 then 10 else 10 * pow10 (n / 10)
  decreasing_by exact Nat.div_lt_self (by omega) (by omega)

/-- Does `rest` avoid starting with a digit (so a maximal digit run before
it stops exactly there)? -/
def restNoDigit : List Char → Bool
  | [] => true
  | c :: _ => !c.isDigit

/-- Characters that `Date.now().toString(36)` / `Math.random().toString(36)`
can produce: decimal digits and lowercase ASCII letters. -/
def base36Char (c : Char) : Bool :=
  c.isDigit || (97 ≤ c.toNat && c.toNat ≤ 122)

/-! ## Access control service (`accessControlService.ts`)

`isValidSuiAddress` comes from the external `@mysten/sui/utils` package, so
it is threaded through as an opaque `String → Bool` parameter everywhere it
is used. -/

/-- A character matched by the email regex's `[^\s@]` class. -/
def atomChar (c : Char) : Bool := !jsWs c && c != '@'

/-- `isValidEmail` (accessControlService.ts:725-728), compiled from the
regex `/^[^\s@]+@[^\s@]+\.[^\s@]+$/`: the string must contain exactly one
`@` (both classes exclude it), a non-empty whitespace-free part before it,
and a whitespace-free part after it containing a `.` that is neither its
first nor its last character (`[^\s@]` admits further dots on both sides,
so an interior dot is exactly what backtracking requires). -/
def isValidEmailChars (cs : List Char) : Bool :=
  let a := cs.takeWhile fun c => c != '@'
  let r := (cs.dropWhile fun c => c != '@').drop 1
  cs.count '@' == 1 && !a.isEmpty && a.all (fun c => !jsWs c) &&
    !r.isEmpty && r.all (fun c => !jsWs c) && ((r.drop 1).dropLast.contains '.')

def isValidEmail (s : String) : Bool := isValidEmailChars s.data

/-- `[a-zA-Z0-9-]*[a-zA-Z0-9]`: the tail of the name part. -/
def middleLast : List Char → Bool
  | [] => false
  | [x] => x.isAlphanum
  | x :: y :: t => (x.isAlphanum || x == '-') && middleLast (y :: t)

/-- `[a-zA-Z0-9][a-zA-Z0-9-]*[a-zA-Z0-9]`: the name needs at least two
characters, alphanumeric at both ends, with hyphens allowed between. -/
def nameOk : List Char → Bool
  | [] => false
  | [_] => false
  | c :: rest => c.isAlphanum && middleLast rest

/-- `isValidSuiNS` (accessControlService.ts:735-739): the regex
`/^[a-zA-Z0-9][a-zA-Z0-9-]*[a-zA-Z0-9]\.sui$/` (the classes exclude `.`,
so the literal `.sui` can only match the final four characters) together
with the length bounds `4 ≤ length ≤ 64`. -/
def isValidSuiNSChars (cs : List Char) : Bool :=
  (cs.drop (cs.length - 4) == (".sui".data)) &&
    nameOk (cs.take (cs.length - 4)) &&
    4 ≤ cs.length && cs.length ≤ 64

def isValidSuiNS (s : String) : Bool := isValidSuiNSChars s.data

structure AccessControlRule where
  conditionType : String
  allowedEmails : Option (List String) := none
  allowedAddresses : Option (List String) := none
  allowedSuiNS : Option (List String) := none
  accessStartTime : Option Int := none
  accessEndTime : Option Int := none
  maxAccessDuration : Option Int := none
  requireAllConditions : Option Bool := none
  maxAccessCount : Option Int := none

structure ValidationResult where
  valid : Bool
  error : Option String := none
deriving DecidableEq

/-- JS truthiness of an optional number: `undefined` and `0` are falsy. -/
def truthyNum : Option Int → Bool
  | none => false
  | some x => x != 0

/-- One validation loop from `validateAccessRule`: with the list present and
non-empty (JS `list && list.length > 0`), the first entry failing the
predicate, else nothing. -/
def listFirstBad (p : String → Bool) (o : Option (List String)) : Option String :=
  match o with
  | none => none
  | some l => if 0 < l.length then l.find? (fun e => !p e) else none

/-- `rule.allowedEmails && rule.allowedEmails.length > 0` as a boolean. -/
def hasEmailB (rule : AccessControlRule) : Bool :=
  match rule.allowedEmails with
  | some l => 0 < l.length
  | none => false

def hasAddressB (rule : AccessControlRule) : Bool :=
  match rule.allowedAddresses with
  | some l => 0 < l.length
  | none => false

/-- `rule.accessStartTime || rule.accessEndTime || rule.maxAccessDuration`
as a boolean (JS truthiness: a time of `0` does not count). -/
def hasTimeB (rule : AccessControlRule) : Bool :=
  truthyNum rule.accessStartTime || truthyNum rule.accessEndTime ||
    truthyNum rule.maxAccessDuration

/-- `validateAccessRule` (accessControlService.ts:660-720): first violation
wins; returns `{valid: true}` when every check passes. -/
def validateAccessRule (isValidSuiAddress : String → Bool)
    (rule : AccessControlRule) : ValidationResult :=
  if !(["email", "wallet", "time", "hybrid"].contains rule.conditionType) then
    { valid := false, error := some ("Invalid condition type") }
  else
    match listFirstBad isValidEmail rule.allowedEmails with
    | some email =>
      { valid := false, error := some ("Invalid email address: " ++ email) }
    | none =>
      match listFirstBad isValidSuiAddress rule.allowedAddresses with
      | some address =>
        { valid := false, error := some ("Invalid Sui address: " ++ address) }
      | none =>
        match listFirstBad isValidSuiNS rule.allowedSuiNS with
        | some suiNS =>
          { valid := false, error := some ("Invalid SuiNS name: " ++ suiNS) }
        | none =>
          if truthyNum rule.accessStartTime && truthyNum rule.accessEndTime &&
              decide (rule.accessEndTime.getD 0 ≤ rule.accessStartTime.getD 0) then
            { valid := false
              error := some ("Access start time must be before end time") }
          else if truthyNum rule.maxAccessDuration &&
              decide (rule.maxAccessDuration.getD 0 ≤ 0) then
            { valid := false
              error := some ("Max access duration must be positive") }
          else if truthyNum rule.maxAccessCount &&
              decide (rule.maxAccessCount.getD 0 ≤ 0) then
            { valid := false
              error := some ("Max access count must be positive") }
          else if rule.conditionType == "hybrid" && !hasEmailB rule &&
              !hasAddressB rule && !hasTimeB rule then
            { valid := false
              error := some
                ("Hybrid access control must specify at least one access method") }
          else { valid := true }

/-- The invalidity condition exactly as claim C2 states it: unknown type, a
malformed entry in any list, `accessStartTime ≥ accessEndTime` when both are
set, non-positive duration or count, or a hybrid rule with no populated
condition family. -/
def claimC2Invalid (v : String → Bool) (rule : AccessControlRule) : Prop :=
  rule.conditionType ∉ (["email", "wallet", "time", "hybrid"] : List String) ∨
  (∃ e ∈ rule.allowedEmails.getD [], isValidEmail e = false) ∨
  (∃ a ∈ rule.allowedAddresses.getD [], v a = false) ∨
  (∃ s ∈ rule.allowedSuiNS.getD [], isValidSuiNS s = false) ∨
  (∃ st en, rule.accessStartTime = some st ∧ rule.accessEndTime = some en ∧
    en ≤ st) ∨
  (∃ d, rule.maxAccessDuration = some d ∧ d ≤ 0) ∨
  (∃ c, rule.maxAccessCount = some c ∧ c ≤ 0) ∨
  (rule.conditionType = "hybrid" ∧ hasEmailB rule = false ∧
    hasAddressB rule = false ∧ hasTimeB rule = false)

/-- The invalidity condition the code actually implements: as the claim,
except that "set" follows JS truthiness (a value of `0` counts as unset), so
duration and count are rejected only when negative, and the time-ordering
check requires both endpoints non-zero. -/
def codeC2Invalid (v : String → Bool) (rule : AccessControlRule) : Prop :=
  rule.conditionType ∉ (["email", "wallet", "time", "hybrid"] : List String) ∨
  (∃ e ∈ rule.allowedEmails.getD [], isValidEmail e = false) ∨
  (∃ a ∈ rule.allowedAddresses.getD [], v a = false) ∨
  (∃ s ∈ rule.allowedSuiNS.getD [], isValidSuiNS s = false) ∨
  (∃ st en, rule.accessStartTime = some st ∧ rule.accessEndTime = some en ∧
    st ≠ 0 ∧ en ≠ 0 ∧ en ≤ st) ∨
  (∃ d, rule.maxAccessDuration = some d ∧ d < 0) ∨
  (∃ c, rule.maxAccessCount = some c ∧ c < 0) ∨
  (rule.conditionType = "hybrid" ∧ hasEmailB rule = false ∧
    hasAddressB rule = false ∧ hasTimeB rule = false)

/-! ## Bulk CSV parsing (`parseBulkData`, accessControlService.ts:831-878) -/

structure ParsedBulkData where
  emails : List (List Char) := []
  addresses : List (List Char) := []
  suiNSNames : List (List Char) := []
  errors : List String := []

/-- CSV rows: split on newlines, drop lines that are blank after trimming
(JS string truthiness), split each line on commas, trim each cell. -/
def rowsOf (content : List Char) : List (List (List Char)) :=
  ((splitOnChar '\n' content).filter fun l => !(jsTrim l).isEmpty).map
    fun l => (splitOnChar ',' l).map jsTrim

/-- The classification of one cell: trim again, skip empties, then try
email, Sui address (the external validator `v`), and SuiNS in that order,
de-duplicating with `includes` before each push; otherwise record a
row-indexed error. -/
def processCell (v : String → Bool) (rowIdx : Nat) (acc : ParsedBulkData)
    (cell : List Char) : ParsedBulkData :=
  let trimmedCell := jsTrim cell
  if trimmedCell.isEmpty then acc
  else if isValidEmailChars trimmedCell then
    (if acc.emails.contains trimmedCell then acc
     else { acc with emails := acc.emails ++ [trimmedCell] })
  else if v (String.mk trimmedCell) then
    (if acc.addresses.contains trimmedCell then acc
     else { acc with addresses := acc.addresses ++ [trimmedCell] })
  else if isValidSuiNSChars trimmedCell then
    (if acc.suiNSNames.contains trimmedCell then acc
     else { acc with suiNSNames := acc.suiNSNames ++ [trimmedCell] })
  else
    { acc with errors := acc.errors ++
        ["Row " ++ toString (rowIdx + 1) ++ ": Invalid format - " ++
          String.mk trimmedCell] }

def processCells (v : String → Bool) (i : Nat) :
    List (List Char) → ParsedBulkData → ParsedBulkData
  | [], acc => acc
  | c :: cs, acc => processCells v i cs (processCell v i acc c)

def processRows (v : String → Bool) :
    List (List (List Char)) → Nat → ParsedBulkData → ParsedBulkData
  | [], _, acc => acc
  | r :: rs, i, acc => processRows v rs (i + 1) (processCells v i r acc)

/-- `parseBulkData`: only `'csv'` content is parsed here (the `xlsx` branch
leaves `rows` empty, as the source notes that Excel parsing happens in the
component). -/
def parseBulkData (v : String → Bool) (content : List Char)
    (fileType : String) : ParsedBulkData :=
  let rows := if fileType = "csv" then rowsOf content else []
  processRows v rows 0 {}

/-- The trimmed cell values `parseBulkData` actually classifies. -/
def bulkCells (content : List Char) : List (List Char) :=
  (rowsOf content).flatten.map jsTrim

/-! ## File service (`fileService.ts`)

Each service method is modelled as a function of its JS inputs plus an
explicit fetch-outcome parameter; the pair it returns carries the response
value the caller sees together with a record of the network interaction (so
"no fetch was attempted" and "which file was sent" are provable facts). -/

def API_BASE_URL : String := "https://backend-96n2.onrender.com"

/-- JS truthiness of an optional string (`undefined`/`""` falsy). -/
def truthyStr : Option String → Bool
  | none => false
  | some s => !(s = "")

/-- JS truthiness of a JSON value. -/
def jsTruthy : Json → Bool
  | .null => false
  | .bool b => b
  | .num i => i != 0
  | .str s => !s.isEmpty
  | .arr _ => true
  | .obj _ => true

def jsTruthyO : Option Json → Bool
  | none => false
  | some v => jsTruthy v

/-- Non-throwing property access (caller has excluded `null`). -/
def jsGetProp (j : Json) (key : String) : Option Json :=
  match j with
  | .obj ms => lookupO ms key.data
  | _ => none

/-- JS `a || b` on possibly-`undefined` JSON values. -/
def jsOr2 (a b : Option Json) : Option Json := if jsTruthyO a then a else b

/-- JS `String(v)` for the values a backend `message` field can carry
(arrays are approximated by the empty string). -/
def jsToString : Json → String
  | .str s => String.mk s
  | .num i => String.mk (intToChars i)
  | .null => "null"
  | .bool true => "true"
  | .bool false => "false"
  | .arr _ => ""
  | .obj _ => "[object Object]"

/-- Fetch outcome for endpoints whose body is read as untyped JSON:
rejection of the fetch itself, or a response with an HTTP-ok flag and a
body (`none` models `response.json()` rejecting on a non-JSON body). -/
inductive JsonFetch where
  | reject : String → JsonFetch
  | resp : Bool → Option Json → JsonFetch

structure FileMetadata where
  cid : Option Json
  filename : Option Json
  fileSize : Option Json
  uploadTimestamp : Option Json
  uploader : Option Json
  isOwner : Bool
  contentType : Option Json
  isEncrypted : Option Json
  encryptionKeys : Option Json

structure FilesData where
  files : List FileMetadata

structure FilesResponse where
  success : Bool
  data : FilesData
  message : Option String := none

/-- One element of the `backendFiles.map(...)` normalization
(fileService.ts:90-100).  Property access on a `null` element throws, which
the surrounding catch turns into the failure response. -/
def formatFile (now : Int) (f : Json) : Except String FileMetadata :=
  match f with
  | .null => .error ("TypeError: cannot read properties of null")
  | _ =>
    .ok { cid := jsOr2 (jsGetProp f "cid") (jsGetProp f "fileCid")
          filename := jsOr2 (jsGetProp f "filename") (jsGetProp f "name")
          fileSize := jsOr2 (jsGetProp f "fileSize") (jsGetProp f "size")
          uploadTimestamp := jsOr2 (jsGetProp f "uploadTimestamp")
            (jsOr2 (jsGetProp f "timestamp") (some (.num now)))
          uploader := jsOr2 (jsGetProp f "uploader") (some (.str ("user".data)))
          isOwner := true
          contentType := jsGetProp f "contentType"
          isEncrypted := jsGetProp f "isEncrypted"
          encryptionKeys := jsGetProp f "encryptionKeys" }

/-- The normalization `data.files || data.data || data`
(fileService.ts:84).  The first property access throws on a `null` body;
after it, `data` is known non-`null` and the remaining accesses cannot
throw. -/
def normalizeBackendFiles (data : Json) : Except String Json :=
  match jsProp data ("files".data) with
  | .error e => .error e
  | .ok filesF =>
    .ok (match jsOr2 filesF (jsOr2 (jsGetProp data "data") (some data)) with
      | some v => v
      | none => data)

/-- JS `Array.isArray`. -/
def Json.isArr : Json → Bool
  | .arr _ => true
  | _ => false

/-- `getUserFiles` (fileService.ts:67-116).  `now` is `Date.now()`. -/
def getUserFiles (token : Option String) (useTestMode : Bool)
    (fetch : JsonFetch) (now : Int) : FilesResponse :=
  match fetch with
  | .reject m => { success := false, data := ⟨[]⟩, message := some m }
  | .resp ok body =>
    match body with
    | none =>
      { success := false, data := ⟨[]⟩
        message := some ("Unexpected end of JSON input") }
    | some data =>
      if !ok then
        { success := false, data := ⟨[]⟩
          message := some (match jsProp data ("message".data) with
            | .error e => e
            | .ok m =>
              if jsTruthyO m then jsToString (m.getD .null)
              else "Failed to fetch files") }
      else
        match normalizeBackendFiles data with
        | .error e => { success := false, data := ⟨[]⟩, message := some e }
        | .ok backendFiles =>
          match backendFiles with
          | .arr a =>
            match (JsonArr.toList a).mapM (formatFile now) with
            | .error e =>
              { success := false, data := ⟨[]⟩, message := some e }
            | .ok fs => { success := true, data := ⟨fs⟩ }
          | _ =>
            { success := false, data := ⟨[]⟩
              message := some ("Invalid response format from server") }

/-- Fetch outcome for the delete endpoints: rejection (of the fetch or of
`response.json()`), or an ok-flag plus the body's `message` field. -/
inductive SimpleFetch where
  | reject : String → SimpleFetch
  | resp : Bool → Option String → SimpleFetch

structure DeleteResponse where
  success : Bool
  message : String
deriving DecidableEq

/-- `clearUserFiles` (fileService.ts:221-255).  The second component is the
endpoint fetched (`none`: no network call was made). -/
def clearUserFiles (token : Option String) (useTestMode : Bool)
    (fetch : SimpleFetch) : DeleteResponse × Option String :=
  if !truthyStr token && !useTestMode then
    ({ success := false, message := "Authentication required to delete files" },
      none)
  else
    let endpoint := if useTestMode then API_BASE_URL ++ "/files-test"
      else API_BASE_URL ++ "/files"
    match fetch with
    | .reject m => ({ success := false, message := m }, some endpoint)
    | .resp ok msg =>
      if !ok then
        ({ success := false, message := jsOrStr msg "Failed to delete files" },
          some endpoint)
      else
        ({ success := true, message := jsOrStr msg "Files deleted successfully" },
          some endpoint)

/-- `deleteFile` (fileService.ts:260-298). -/
def deleteFile (cid : String) (token : Option String) (useTestMode : Bool)
    (fetch : SimpleFetch) : DeleteResponse × Option String :=
  if !truthyStr token && !useTestMode then
    ({ success := false, message := "Authentication required to delete file" },
      none)
  else
    let endpoint := if useTestMode then
        API_BASE_URL ++ "/file/" ++ cid ++ "/delete-test"
      else API_BASE_URL ++ "/file/" ++ cid ++ "/delete"
    match fetch with
    | .reject m => ({ success := false, message := m }, some endpoint)
    | .resp ok msg =>
      if !ok then
        ({ success := false, message := jsOrStr msg "Failed to delete file" },
          some endpoint)
      else
        ({ success := true, message := jsOrStr msg "File deleted successfully" },
          some endpoint)

structure SharedHeaders where
  contentDisposition : Option String
  contentType : Option String
  xFileEncrypted : Option String

/-- Fetch outcome for the shared-file download: rejection, or a response
with ok-flag, headers, body bytes, and (for the error path) the `message`
of the error body (`none` both when absent and when the `.catch(() => ({}))`
fallback kicks in). -/
inductive SharedFetch where
  | reject : String → SharedFetch
  | resp : Bool → SharedHeaders → List Nat → Option String → SharedFetch

structure SharedDownloadResult where
  success : Bool
  error : Option String := none
  fileData : Option (List Nat) := none
  filename : Option String := none
  contentType : Option String := none
  isEncrypted : Option Bool := none

/-- The literal prefix of the regex `/filename="(.+)"/`. -/
def fnamePat : List Char := ("filename=\"".data)

/-- The capture of `/filename="(.+)"/` on a header value: the regex can
first match at the first occurrence of the literal `filename="`, and the
greedy `(.+)` then extends to the last `"` of the remainder (which must
leave at least one captured character).  If no such quote exists there is no
match anywhere, since any later `filename="` occurrence would itself put a
quote in the remainder. -/
def filenameCapture (h : List Char) : Option (List Char) :=
  match afterFirst fnamePat h with
  | none => none
  | some tail =>
    match lastIdxOf '"' tail with
    | none => none
    | some i => if 0 < i then some (tail.take i) else none

/-- `downloadSharedFile` (fileService.ts:303-362). -/
def downloadSharedFile (shareId : String) (token : Option String)
    (fetch : SharedFetch) : SharedDownloadResult :=
  match fetch with
  | .reject m => { success := false, error := some m }
  | .resp ok hdrs bytes errMsg =>
    if !ok then
      { success := false
        error := some (jsOrStr errMsg "Failed to download shared file") }
    else
      { success := true
        fileData := some bytes
        filename := some (match hdrs.contentDisposition with
          | none => "shared-file"
          | some cd =>
            match filenameCapture cd.data with
            | some cap => String.mk cap
            | none => "shared-file")
        contentType := some (jsOrStr hdrs.contentType "application/octet-stream")
        isEncrypted := some (hdrs.xFileEncrypted == some "true") }

/-! ## Upload pipeline (`fileService.uploadFile` and
`uploadSingleFile` from `FileUpload.tsx`) -/

structure FileModel where
  name : String
  bytes : List Nat
deriving DecidableEq

structure EncKeys where
  publicKey : List Char
  secretKey : List Char
deriving DecidableEq

structure EncryptionData where
  encryptedFile : FileModel
  encryptionKeys : EncKeys
deriving DecidableEq

structure UploadData where
  fileCid : Option String := none
  transactionDigest : Option String := none
  walrusCid : Option String := none
  encryptionKeys : Option EncKeys := none
  isEncrypted : Option Bool := none
deriving DecidableEq

structure UploadResponse where
  success : Bool
  data : Option UploadData := none
  message : Option String := none
deriving DecidableEq

/-- Fetch outcome for the upload endpoint; the body is read as the typed
`UploadResponse` shape the client declares (`.error m` models
`response.json()` rejecting with message `m`). -/
inductive UploadFetch where
  | reject : String → UploadFetch
  | resp : Bool → Except String UploadResponse → UploadFetch

/-- What `uploadFile` put on the wire: the file appended to the form data,
which endpoint family, the auth header, and whether encryption data was
passed in. -/
structure SentUpload where
  formFile : FileModel
  endpointTest : Bool
  authHeader : Option String
  hadEncryptionData : Bool
deriving DecidableEq

/-- `uploadFile` (fileService.ts:121-176): uploads the encrypted file when
encryption data is present, then re-attaches the keys and `isEncrypted` to
the server's response locally. -/
def uploadFile (file : FileModel) (token : Option String) (useTestMode : Bool)
    (encryptionData : Option EncryptionData) (fetch : UploadFetch) :
    UploadResponse × SentUpload :=
  let fileToUpload := match encryptionData with
    | some e => e.encryptedFile
    | none => file
  let sent : SentUpload :=
    { formFile := fileToUpload
      endpointTest := useTestMode
      authHeader := match token with
        | some t => if t = "" then none else some ("Bearer " ++ t)
        | none => none
      hadEncryptionData := encryptionData.isSome }
  match fetch with
  | .reject m => ({ success := false, message := some m }, sent)
  | .resp ok body =>
    match body with
    | .error m => ({ success := false, message := some m }, sent)
    | .ok result =>
      if !ok then
        ({ success := false
           message := some (jsOrStr result.message "Upload failed") }, sent)
      else
        match encryptionData, result.data with
        | some e, some d =>
          ({ result with data := some { d with
              encryptionKeys := some e.encryptionKeys
              isEncrypted := some true } }, sent)
        | _, _ => (result, sent)

/-- The "prepare encryption data" block of `uploadSingleFile`
(FileUpload.tsx:161-197): with `encryptionState.isReady` (`encReady`) the
hook attempts the adapter's `encryptFile` (`svcReady` is the adapter's own
readiness) and on success wraps the encrypted bytes as a new file named
`name.encrypted` together with the keys; on any failure it yields nothing
and the original bytes are uploaded. -/
def encryptionDataFor (attached : FileModel) (encReady svcReady : Bool)
    (fileRead : Except String (List Nat)) (keyId : List Char) (now : Nat) :
    Option EncryptionData :=
  if encReady then
    let er := encryptFile svcReady fileRead keyId now
    if er.success then
      some { encryptedFile :=
              { name := attached.name ++ ".encrypted"
                bytes := er.encryptedData.getD [] }
             encryptionKeys :=
              { publicKey := er.publicKey.getD []
                secretKey := er.secretKey.getD [] } }
    else none
  else none

/-- `uploadSingleFile` (FileUpload.tsx:144-220).  The pre-`try`
authentication check rethrows to the caller (`Except.error`); the
`!result.success` throw inside the `try` is caught by the surrounding
`catch`, which turns it into a failure result. -/
def uploadSingleFile (useTestMode isAuthenticated : Bool)
    (token : Option String) (attached : FileModel) (encReady svcReady : Bool)
    (fileRead : Except String (List Nat)) (keyId : List Char) (now : Nat)
    (fetch : UploadFetch) : Except String (SentUpload × UploadResponse) :=
  if !useTestMode && !isAuthenticated then
    .error ("Please log in to upload files")
  else
    let r := uploadFile attached token useTestMode
      (encryptionDataFor attached encReady svcReady fileRead keyId now) fetch
    if !r.1.success then
      .ok (r.2, { success := false
                  message := some (jsOrStr r.1.message "Upload failed") })
    else .ok (r.2, r.1)

/-- The backend body of C5: an object whose `data` member is a one-element
array holding an object with members `fileCid = "x"`, `name = "a.txt"`,
`size = 10`. -/
def c5Body : Json :=
  .obj (.cons ("data".data)
    (.arr (.cons
      (.obj (.cons ("fileCid".data) (.str ("x".data))
        (.cons ("name".data) (.str ("a.txt".data))
        (.cons ("size".data) (.num 10) .nil))))
      .nil))
    .nil)

/-! ## Declarative semantics of the filename regex (for C10)

`fnameMatchSpec s cap` is a spec-side reading of what the JS engine
returns for a match of `/filename="(.+)"/` against `s`: the subject
decomposes as `pre ++ fnamePat ++ cap ++ quote ++ rest` with a nonempty
capture, the match is leftmost (no decomposition puts the literal earlier),
and the capture is greedy (no further quote after it).  `fnameHasMatch s`
states that a full match exists somewhere.  `filenameCapture`, translated
from the source, is proved sound for both below. -/

def fnameMatchSpec (s cap : List Char) : Prop :=
  cap ≠ [] ∧
  ∃ pre rest, s = pre ++ fnamePat ++ cap ++ '"' :: rest ∧
    (∀ p q, s = p ++ fnamePat ++ q → pre.length ≤ p.length) ∧
    '"' ∉ rest

def fnameHasMatch (s : List Char) : Prop :=
  ∃ p cap rest, cap ≠ [] ∧ s = p ++ fnamePat ++ cap ++ '"' :: rest

/-- The server body of the C3 counterexample: a successful upload response
whose `data` already carries `isEncrypted = true` — a field the backend is
free to put there. -/
def c3Body : UploadResponse :=
  { success := true
    data := some { fileCid := some ("cid1"), isEncrypted := some true } }

theorem sizeJ_pos (j : Json) : 1 ≤ sizeJ j := by
  cases j <;> simp [sizeJ]

theorem digitChar10_isDigit (d : Nat) : (digitChar10 d).isDigit = true := by
  unfold digitChar10
  split <;> decide

theorem digitChar10_toNat (d : Nat) (h : d < 10) :
    (digitChar10 d).toNat = 48 + d := by
  interval_cases d <;> decide

theorem isDigit_toNat (c : Char) (h : c.isDigit = true) :
    48 ≤ c.toNat ∧ c.toNat ≤ 57 := by
  simp [Char.isDigit, Char.le_def] at h
  obtain ⟨h1, h2⟩ := h
  unfold Char.toNat
  exact ⟨h1, h2⟩

theorem char_ne_of_toNat_ne (c d : Char) (h : c.toNat ≠ d.toNat) : c ≠ d :=
  fun he => h (he ▸ rfl)

theorem isJsonWs_false_of_ge (c : Char) (h : 33 ≤ c.toNat) :
    isJsonWs c = false := by
  simp only [isJsonWs, Bool.or_eq_false_iff, decide_eq_false_iff_not]
  refine ⟨⟨⟨?_, ?_⟩, ?_⟩, ?_⟩ <;>
    (intro he; subst he; exact absurd h (by decide))

theorem natToCharsAux_append (n : Nat) :
    ∀ acc, natToCharsAux n acc = natToChars n ++ acc := by
  induction n using Nat.strong_induction_on with
  | _ n ih =>
    intro acc
    by_cases h : n < 10
    · conv_lhs => rw [natToCharsAux]
      conv_rhs => rw [natToChars, natToCharsAux]
      simp [h]
    · conv_lhs => rw [natToCharsAux]
      conv_rhs => rw [natToChars, natToCharsAux]
      rw [dif_neg h, dif_neg h,
          ih (n / 10) (Nat.div_lt_self (by omega) (by omega))
            (digitChar10 (n % 10) :: acc),
          ih (n / 10) (Nat.div_lt_self (by omega) (by omega))
            (digitChar10 (n % 10) :: []),
          List.append_assoc, List.singleton_append]

theorem natToChars_of_lt {n : Nat} (h : n < 10) :
    natToChars n = [digitChar10 n] := by
  rw [natToChars, natToCharsAux]
  simp [h]

theorem natToChars_of_ge {n : Nat} (h : ¬n < 10) :
    natToChars n = natToChars (n / 10) ++ [digitChar10 (n % 10)] := by
  conv_lhs => rw [natToChars, natToCharsAux]
  simp only [h, dif_neg, not_false_iff]
  rw [natToCharsAux_append]

theorem natToChars_ne_nil (n : Nat) : natToChars n ≠ [] := by
  by_cases h : n < 10
  · simp [natToChars_of_lt h]
  · simp [natToChars_of_ge h]

theorem natToChars_all_digit (n : Nat) :
    ∀ c ∈ natToChars n, c.isDigit = true := by
  induction n using Nat.strong_induction_on with
  | _ n ih =>
    by_cases h : n < 10
    · rw [natToChars_of_lt h]
      intro c hc
      rw [List.mem_singleton] at hc
      subst hc
      exact digitChar10_isDigit n
    · rw [natToChars_of_ge h]
      intro c hc
      rw [List.mem_append] at hc
      rcases hc with hc | hc
      · exact ih (n / 10) (Nat.div_lt_self (by omega) (by omega)) c hc
      · rw [List.mem_singleton] at hc
        subst hc
        exact digitChar10_isDigit (n % 10)

theorem natToChars_head (n : Nat) :
    ∃ d t, natToChars n = d :: t ∧ d.isDigit = true := by
  cases hh : natToChars n with
  | nil => exact absurd hh (natToChars_ne_nil n)
  | cons d t =>
    refine ⟨d, t, rfl, natToChars_all_digit n d ?_⟩
    rw [hh]
    exact List.mem_cons_self d t

theorem digitsGo_stop (rest : List Char) (acc : Nat)
    (h : restNoDigit rest = true) : digitsGo rest acc = (acc, rest) := by
  cases rest with
  | nil => rfl
  | cons c t =>
    simp only [restNoDigit, Bool.not_eq_true'] at h
    simp [digitsGo, h]

theorem digitsGo_natToChars (n : Nat) :
    ∀ acc rest, digitsGo (natToChars n ++ rest) acc =
      digitsGo rest (acc * pow10 n + n) := by
  induction n using Nat.strong_induction_on with
  | _ n ih =>
    intro acc rest
    by_cases h : n < 10
    · rw [natToChars_of_lt h, pow10]
      simp only [h, dif_pos, List.cons_append, List.nil_append]
      rw [digitsGo]
      simp [digitChar10_isDigit n, digitChar10_toNat n h]
    · rw [natToChars_of_ge h, List.append_assoc,
        ih (n / 10) (Nat.div_lt_self (by omega) (by omega)),
        List.singleton_append, digitsGo]
      simp only [digitChar10_isDigit (n % 10), if_true]
      rw [digitChar10_toNat (n % 10) (by omega)]
      have hp : pow10 n = 10 * pow10 (n / 10) := by
        rw [pow10]; simp [h]
      rw [hp]
      have hdm := Nat.div_add_mod n 10
      congr 1
      ring_nf
      omega

theorem parseNumber_intToChars (i : Int) (rest : List Char)
    (h : restNoDigit rest = true) :
    parseNumber (intToChars i ++ rest) = some (i, rest) := by
  by_cases hi : i < 0
  · rw [intToChars, if_pos hi, List.cons_append]
    obtain ⟨d, t, hd, hdig⟩ := natToChars_head (-i).toNat
    rw [hd]
    simp only [List.cons_append, parseNumber, if_pos rfl, hdig, if_true]
    have : digitsGo (natToChars (-i).toNat ++ rest) 0 =
        digitsGo rest (0 * pow10 (-i).toNat + (-i).toNat) :=
      digitsGo_natToChars (-i).toNat 0 rest
    rw [hd] at this
    simp only [List.cons_append] at this
    rw [this, digitsGo_stop rest _ h]
    simp only [Nat.zero_mul, Nat.zero_add]
    congr 1
    congr 1
    omega
  · rw [intToChars, if_neg hi]
    obtain ⟨d, t, hd, hdig⟩ := natToChars_head i.toNat
    rw [hd, List.cons_append]
    have hdne : ¬d = '-' := by
      intro he
      subst he
      exact absurd hdig (by decide)
    simp only [parseNumber, if_neg hdne, hdig, if_true]
    have : digitsGo (natToChars i.toNat ++ rest) 0 =
        digitsGo rest (0 * pow10 i.toNat + i.toNat) :=
      digitsGo_natToChars i.toNat 0 rest
    rw [hd] at this
    simp only [List.cons_append] at this
    rw [this, digitsGo_stop rest _ h]
    simp only [Nat.zero_mul, Nat.zero_add]
    congr 1
    congr 1
    omega

theorem plainChar_spec (c : Char) (h : plainChar c = true) :
    32 ≤ c.toNat ∧ c.toNat < 127 ∧ c ≠ '"' ∧ c ≠ '\\' := by
  simp only [plainChar, Bool.and_eq_true, bne_iff_ne, ne_eq,
    decide_eq_true_eq] at h
  exact ⟨h.1.1.1, h.1.1.2, h.1.2, h.2⟩

theorem escChar_plain (c : Char) (h : plainChar c = true) : escChar c = [c] := by
  obtain ⟨h32, _, hq, hb⟩ := plainChar_spec c h
  have h8 : (c.toNat == 8) = false := by
    simp only [beq_eq_false_iff_ne, ne_eq]
    omega
  have h12 : (c.toNat == 12) = false := by
    simp only [beq_eq_false_iff_ne, ne_eq]
    omega
  have h13 : (c.toNat == 13) = false := by
    simp only [beq_eq_false_iff_ne, ne_eq]
    omega
  have ht : c ≠ '\t' := char_ne_of_toNat_ne c '\t' (by intro he; rw [he] at h32; exact absurd h32 (by decide))
  have hn : c ≠ '\n' := char_ne_of_toNat_ne c '\n' (by intro he; rw [he] at h32; exact absurd h32 (by decide))
  have hc : ¬c.toNat < 32 := by omega
  simp [escChar, hq, hb, h8, h12, h13, ht, hn, hc]

theorem escapeChars_plain (s : List Char) (h : ∀ c ∈ s, plainChar c = true) :
    escapeChars s = s := by
  induction s with
  | nil => rfl
  | cons c t ih =>
    rw [escapeChars, List.flatMap_cons, escChar_plain c (h c (List.mem_cons_self c t))]
    rw [escapeChars] at ih
    rw [ih fun x hx => h x (List.mem_cons_of_mem c hx)]
    rfl

theorem parseStringBody_rt (s : List Char) (rest : List Char)
    (h : ∀ c ∈ s, plainChar c = true) :
    parseStringBody (s ++ '"' :: rest) = some (s, rest) := by
  induction s with
  | nil =>
    rw [List.nil_append, parseStringBody.eq_def]
    simp
  | cons c t ih =>
    obtain ⟨h32, _, hq, hb⟩ := plainChar_spec c (h c (List.mem_cons_self c t))
    have hc : ¬c.toNat < 32 := by omega
    rw [List.cons_append, parseStringBody.eq_def]
    simp only []
    rw [if_neg hq, if_neg hb, if_neg hc]
    rw [ih fun x hx => h x (List.mem_cons_of_mem c hx)]

theorem sizeA_cons_pos (x : Json) (tl : JsonArr) :
    1 ≤ sizeA (JsonArr.cons x tl) := by
  rw [sizeA]
  omega

theorem sizeO_cons_pos (k : List Char) (v : Json) (tl : JsonObj) :
    1 ≤ sizeO (JsonObj.cons k v tl) := by
  rw [sizeO]
  omega

theorem skipWs_cons_of (c : Char) (t : List Char) (h : isJsonWs c = false) :
    skipWs (c :: t) = c :: t := by
  simp [skipWs, List.dropWhile_cons, h]

theorem intToChars_head (i : Int) :
    ∃ c t, intToChars i = c :: t ∧ (c.isDigit = true ∨ c = '-') := by
  by_cases hi : i < 0
  · exact ⟨'-', natToChars (-i).toNat, by rw [intToChars, if_pos hi], Or.inr rfl⟩
  · obtain ⟨d, t, hd, hdig⟩ := natToChars_head i.toNat
    exact ⟨d, t, by rw [intToChars, if_neg hi, hd], Or.inl hdig⟩

theorem encJ_head (j : Json) (hp : plainJ j = true) :
    ∃ c t, encJ j = c :: t ∧ isJsonWs c = false ∧ c ≠ ']' := by
  cases j with
  | null => simp [plainJ] at hp
  | bool b => simp [plainJ] at hp
  | num i =>
    obtain ⟨c, t, hc, hd⟩ := intToChars_head i
    have he : encJ (.num i) = intToChars i := by rw [encJ]
    rcases hd with hd | hd
    · obtain ⟨h48, h57⟩ := isDigit_toNat c hd
      exact ⟨c, t, by rw [he, hc], isJsonWs_false_of_ge c (by omega),
        char_ne_of_toNat_ne c ']' (by intro hh; rw [show (']').toNat = 93 from rfl] at hh; omega)⟩
    · subst hd
      exact ⟨'-', t, by rw [he, hc], by decide, by decide⟩
  | str s =>
    exact ⟨'"', escapeChars s ++ ['"'], by rw [encJ], by decide, by decide⟩
  | arr a =>
    exact ⟨'[', encA a ++ [']'], by rw [encJ], by decide, by decide⟩
  | obj ms =>
    exact ⟨lbrace, encO ms ++ [rbrace], by rw [encJ], by decide, by decide⟩

theorem parseValue_num (f : Nat) (i : Int) (rest : List Char)
    (hr : restNoDigit rest = true) :
    parseValue (f + 1) (intToChars i ++ rest) = some (.num i, rest) := by
  obtain ⟨c, t, hc, hd⟩ := intToChars_head i
  have hb : 45 ≤ c.toNat ∧ c.toNat ≤ 57 := by
    rcases hd with hd | hd
    · have := isDigit_toNat c hd
      omega
    · subst hd
      exact ⟨by decide, by decide⟩
  have hws : isJsonWs c = false := isJsonWs_false_of_ge c (by omega)
  have hq : ¬c = '"' :=
    char_ne_of_toNat_ne c '"' (by rw [show ('"').toNat = 34 from rfl]; omega)
  have hlb : ¬c = '[' :=
    char_ne_of_toNat_ne c '[' (by rw [show ('[').toNat = 91 from rfl]; omega)
  have hbr : ¬c = lbrace :=
    char_ne_of_toNat_ne c lbrace (by rw [show lbrace.toNat = 123 from rfl]; omega)
  have ht : ¬c = 't' :=
    char_ne_of_toNat_ne c 't' (by rw [show ('t').toNat = 116 from rfl]; omega)
  have hf : ¬c = 'f' :=
    char_ne_of_toNat_ne c 'f' (by rw [show ('f').toNat = 102 from rfl]; omega)
  have hn : ¬c = 'n' :=
    char_ne_of_toNat_ne c 'n' (by rw [show ('n').toNat = 110 from rfl]; omega)
  have hcond : (c.isDigit || decide (c = '-')) = true := by
    rcases hd with hd | hd
    · simp [hd]
    · simp [hd]
  have hpn : parseNumber (c :: (t ++ rest)) = some (i, rest) := by
    rw [← List.cons_append, ← hc]
    exact parseNumber_intToChars i rest hr
  rw [hc, List.cons_append, parseValue, skipWs_cons_of _ _ hws]
  simp only [hq, hlb, hbr, ht, hf, hn, if_false, hcond, if_true, hpn]

theorem parseValue_str (f : Nat) (s rest : List Char)
    (h : ∀ c ∈ s, plainChar c = true) :
    parseValue (f + 1) (('"' :: (escapeChars s ++ ['"'])) ++ rest) =
      some (.str s, rest) := by
  rw [escapeChars_plain s h, List.cons_append, List.append_assoc,
    List.singleton_append, parseValue, skipWs_cons_of _ _ (by decide)]
  simp only [if_true, parseStringBody_rt s rest h]

theorem restNoDigit_cons (c : Char) (t : List Char) :
    restNoDigit (c :: t) = !c.isDigit := by
  rw [restNoDigit]

/-- Rendering a plain value and re-parsing it with enough fuel recovers the
value exactly, with the trailing input untouched (provided the trailing
input cannot extend a trailing digit run). -/
theorem parse_enc_all (f : Nat) :
    (∀ j rest, plainJ j = true → sizeJ j < f → restNoDigit rest = true →
      parseValue f (encJ j ++ rest) = some (j, rest)) ∧
    (∀ a rest, plainA a = true → a ≠ JsonArr.nil → sizeA a < f →
      parseElems f (encA a ++ (']' :: rest)) = some (a, rest)) ∧
    (∀ ms rest, plainO ms = true → ms ≠ JsonObj.nil → sizeO ms < f →
      parseMembers f (encO ms ++ (rbrace :: rest)) = some (ms, rest)) := by
  induction f with
  | zero =>
    refine ⟨fun j _ _ hs _ => absurd hs (by omega),
      fun a _ _ _ hs => absurd hs (by omega),
      fun ms _ _ _ hs => absurd hs (by omega)⟩
  | succ f ih =>
    obtain ⟨ihV, ihE, ihM⟩ := ih
    refine ⟨?_, ?_, ?_⟩
    · intro j rest hp hs hr
      cases j with
      | null => simp [plainJ] at hp
      | bool b => simp [plainJ] at hp
      | num i =>
        rw [show encJ (.num i) = intToChars i from by rw [encJ]]
        exact parseValue_num f i rest hr
      | str s =>
        have hall : ∀ c ∈ s, plainChar c = true := by
          have h0 : s.all plainChar = true := by rw [plainJ] at hp; exact hp
          simpa [List.all_eq_true] using h0
        rw [show encJ (.str s) = '"' :: (escapeChars s ++ ['"']) from by rw [encJ]]
        exact parseValue_str f s rest hall
      | arr a =>
        have hpa : plainA a = true := by rw [plainJ] at hp; exact hp
        have hsa : sizeA a < f := by rw [sizeJ] at hs; omega
        have he : encJ (.arr a) ++ rest = '[' :: (encA a ++ (']' :: rest)) := by
          rw [encJ]
          simp [List.append_assoc]
        rw [he, parseValue, skipWs_cons_of _ _ (by decide)]
        simp only [(by decide : ¬('[' : Char) = '"'), if_false, eq_self_iff_true,
          if_true]
        cases a with
        | nil =>
          have hsk : ∀ t : List Char, skipWs (']' :: t) = ']' :: t :=
            fun t => skipWs_cons_of _ _ (by decide)
          rw [show encA JsonArr.nil = [] from by rw [encA], List.nil_append]
          simp only [hsk, eq_self_iff_true, if_true]
        | cons x tl =>
          have hpx : plainJ x = true := by
            rw [plainA] at hpa
            exact (Bool.and_eq_true_iff.mp hpa).1
          obtain ⟨c1, t1, hc1, hw1, hne1⟩ := encJ_head x hpx
          have hR : ∃ R, encA (.cons x tl) = encJ x ++ R := by
            cases tl with
            | nil => exact ⟨[], by rw [encA, List.append_nil]⟩
            | cons y tl2 => exact ⟨_, by rw [encA]⟩
          obtain ⟨R, hRe⟩ := hR
          have hskip : skipWs (encA (.cons x tl) ++ (']' :: rest)) =
              c1 :: (t1 ++ (R ++ (']' :: rest))) := by
            rw [hRe, hc1, List.append_assoc, List.cons_append]
            exact skipWs_cons_of _ _ hw1
          rw [hskip]
          simp only [hne1, if_false,
            ihE (.cons x tl) rest hpa (by intro hh; cases hh) hsa]
      | obj ms =>
        have hpm : plainO ms = true := by rw [plainJ] at hp; exact hp
        have hsm : sizeO ms < f := by rw [sizeJ] at hs; omega
        have he : encJ (.obj ms) ++ rest = lbrace :: (encO ms ++ (rbrace :: rest)) := by
          rw [encJ]
          simp [List.append_assoc]
        rw [he, parseValue, skipWs_cons_of _ _ (by decide)]
        simp only [(by decide : ¬lbrace = '"'), (by decide : ¬lbrace = '['),
          if_false, eq_self_iff_true, if_true]
        cases ms with
        | nil =>
          have hskb : ∀ t : List Char, skipWs (rbrace :: t) = rbrace :: t :=
            fun t => skipWs_cons_of _ _ (by decide)
          rw [show encO JsonObj.nil = [] from by rw [encO], List.nil_append]
          simp only [hskb, eq_self_iff_true, if_true, List.tail_cons]
        | cons k v tl =>
          have hhead : ∃ W, encO (.cons k v tl) = '"' :: W := by
            cases tl with
            | nil => exact ⟨_, by rw [encO, List.cons_append]⟩
            | cons k2 v2 tl2 =>
              exact ⟨_, by rw [encO, List.cons_append, List.cons_append]⟩
          obtain ⟨W, hW⟩ := hhead
          have hskip : skipWs (encO (.cons k v tl) ++ (rbrace :: rest)) =
              '"' :: (W ++ (rbrace :: rest)) := by
            rw [hW, List.cons_append]
            exact skipWs_cons_of _ _ (by decide)
          rw [hskip]
          simp only [(by decide : ¬('"' : Char) = rbrace), if_false,
            ihM (.cons k v tl) rest hpm (by intro hh; cases hh) hsm]
    · intro a rest hp hne hs
      cases a with
      | nil => exact absurd rfl hne
      | cons x tl =>
        have hpx : plainJ x = true ∧ plainA tl = true := by
          rw [plainA] at hp
          exact Bool.and_eq_true_iff.mp hp
        cases tl with
        | nil =>
          have he : encA (.cons x .nil) ++ (']' :: rest) = encJ x ++ (']' :: rest) := by
            rw [encA]
          have hsx : sizeJ x < f := by
            rw [sizeA, sizeA] at hs
            omega
          have hsk : ∀ t : List Char, skipWs (']' :: t) = ']' :: t :=
            fun t => skipWs_cons_of _ _ (by decide)
          rw [parseElems, he, ihV x (']' :: rest) hpx.1 hsx
            (by rw [restNoDigit_cons]; decide)]
          simp only [hsk, (by decide : ¬(']' : Char) = ','), if_false,
            eq_self_iff_true, if_true]
        | cons y tl2 =>
          have he : encA (.cons x (.cons y tl2)) ++ (']' :: rest)
              = encJ x ++ (',' :: (encA (.cons y tl2) ++ (']' :: rest))) := by
            rw [encA]
            simp [List.append_assoc]
          have hsx : sizeJ x < f := by
            rw [sizeA] at hs
            omega
          have hst : sizeA (.cons y tl2) < f := by
            rw [sizeA] at hs
            have := sizeJ_pos x
            omega
          have hskc : ∀ t : List Char, skipWs (',' :: t) = ',' :: t :=
            fun t => skipWs_cons_of _ _ (by decide)
          rw [parseElems, he, ihV x _ hpx.1 hsx
            (by rw [restNoDigit_cons]; decide)]
          simp only [hskc, eq_self_iff_true, if_true,
            ihE (.cons y tl2) rest hpx.2 (by intro hh; cases hh) hst]
    · intro ms rest hp hne hs
      cases ms with
      | nil => exact absurd rfl hne
      | cons k v tl =>
        have hpk : k.all plainChar = true ∧ plainJ v = true ∧ plainO tl = true := by
          rw [plainO] at hp
          have h1 := Bool.and_eq_true_iff.mp hp
          have h2 := Bool.and_eq_true_iff.mp h1.1
          exact ⟨h2.1, h2.2, h1.2⟩
        have hkall : ∀ c ∈ k, plainChar c = true := by
          simpa [List.all_eq_true] using hpk.1
        have hsv : sizeJ v < f := by
          rw [sizeO] at hs
          omega
        have hsk : ∀ t : List Char, skipWs (':' :: t) = ':' :: t :=
          fun t => skipWs_cons_of _ _ (by decide)
        have hskb : ∀ t : List Char, skipWs (rbrace :: t) = rbrace :: t :=
          fun t => skipWs_cons_of _ _ (by decide)
        have hskc : ∀ t : List Char, skipWs (',' :: t) = ',' :: t :=
          fun t => skipWs_cons_of _ _ (by decide)
        cases tl with
        | nil =>
          have he : encO (.cons k v .nil) ++ (rbrace :: rest)
              = '"' :: (k ++ ('"' :: (':' :: (encJ v ++ (rbrace :: rest))))) := by
            rw [encO, escapeChars_plain k hkall]
            simp [List.append_assoc]
          rw [parseMembers, he, skipWs_cons_of _ _ (by decide)]
          simp only [eq_self_iff_true, if_true, parseStringBody_rt k _ hkall, hsk,
            ihV v (rbrace :: rest) hpk.2.1 hsv (by rw [restNoDigit_cons]; decide),
            hskb,
            (by decide : ¬rbrace = ','), if_false]
        | cons k2 v2 tl2 =>
          have he : encO (.cons k v (.cons k2 v2 tl2)) ++ (rbrace :: rest)
              = '"' :: (k ++ ('"' :: (':' :: (encJ v ++
                  (',' :: (encO (.cons k2 v2 tl2) ++ (rbrace :: rest))))))) := by
            rw [encO, escapeChars_plain k hkall]
            simp [List.append_assoc]
          have hst : sizeO (.cons k2 v2 tl2) < f := by
            rw [sizeO] at hs
            have := sizeJ_pos v
            omega
          rw [parseMembers, he, skipWs_cons_of _ _ (by decide)]
          simp only [eq_self_iff_true, if_true, parseStringBody_rt k _ hkall, hsk,
            ihV v (',' :: (encO (.cons k2 v2 tl2) ++ (rbrace :: rest))) hpk.2.1 hsv
              (by rw [restNoDigit_cons]; decide), hskc,
            ihM (.cons k2 v2 tl2) rest hpk.2.2 (by intro hh; cases hh) hst]

mutual

theorem sizeJ_le_len : ∀ j : Json, sizeJ j ≤ (encJ j).length
  | .null => by rw [sizeJ, encJ]; decide
  | .bool true => by rw [sizeJ, encJ]; decide
  | .bool false => by rw [sizeJ, encJ]; decide
  | .num i => by
    obtain ⟨c, t, hc, _⟩ := intToChars_head i
    rw [sizeJ, encJ, hc]
    simp
  | .str s => by
    rw [sizeJ, encJ]
    simp
  | .arr a => by
    have h := sizeA_le_len a
    rw [sizeJ, encJ]
    simp only [List.length_cons, List.length_append, List.length_singleton]
    omega
  | .obj ms => by
    have h := sizeO_le_len ms
    rw [sizeJ, encJ]
    simp only [List.length_cons, List.length_append, List.length_singleton]
    omega

theorem sizeA_le_len : ∀ a : JsonArr, sizeA a ≤ (encA a).length + 1
  | .nil => by rw [sizeA, encA]; simp
  | .cons x .nil => by
    have h := sizeJ_le_len x
    rw [sizeA, sizeA, encA]
    omega
  | .cons x (JsonArr.cons y tl) => by
    have h1 := sizeJ_le_len x
    have h2 := sizeA_le_len (JsonArr.cons y tl)
    rw [sizeA, encA]
    simp only [List.length_append, List.length_cons]
    omega

theorem sizeO_le_len : ∀ ms : JsonObj, sizeO ms ≤ (encO ms).length + 1
  | .nil => by rw [sizeO, encO]; simp
  | .cons k v .nil => by
    have h := sizeJ_le_len v
    rw [sizeO, sizeO, encO]
    simp only [List.length_append, List.length_cons]
    omega
  | .cons k v (JsonObj.cons k2 v2 tl) => by
    have h1 := sizeJ_le_len v
    have h2 := sizeO_le_len (JsonObj.cons k2 v2 tl)
    rw [sizeO, encO]
    simp only [List.length_append, List.length_cons]
    omega

end

/-- `JSON.parse` inverts `JSON.stringify` on plain values. -/
theorem jsonParse_enc (j : Json) (hp : plainJ j = true) :
    jsonParse (encJ j) = some j := by
  have h1 := (parse_enc_all ((encJ j).length + 1)).1 j [] hp
    (by have := sizeJ_le_len j; omega) rfl
  rw [List.append_nil] at h1
  rw [jsonParse, h1]
  rfl

theorem utf8_ascii_rt (cs : List Char) (h : ∀ c ∈ cs, c.toNat < 128) :
    utf8DecodeReplace (utf8Encode cs) = cs := by
  induction cs with
  | nil => simp [utf8Encode, utf8DecodeReplace]
  | cons c t ih =>
    have hc := h c (List.mem_cons_self c t)
    rw [utf8Encode, List.flatMap_cons,
      show utf8EncodeChar c = [c.toNat] from by rw [utf8EncodeChar]; simp [hc],
      List.singleton_append, utf8DecodeReplace,
      show utf8Step c.toNat (t.flatMap utf8EncodeChar) =
        (Char.ofNat c.toNat, 0) from by rw [utf8Step.eq_def]; simp [hc]]
    simp only [List.drop_zero]
    rw [Char.ofNat_toNat c]
    rw [show t.flatMap utf8EncodeChar = utf8Encode t from rfl,
      ih fun x hx => h x (List.mem_cons_of_mem c hx)]

theorem digit_lt_128 (c : Char) (h : c.isDigit = true) : c.toNat < 128 := by
  have := isDigit_toNat c h
  omega

theorem intToChars_ascii (i : Int) : ∀ c ∈ intToChars i, c.toNat < 128 := by
  intro c hc
  rw [intToChars] at hc
  by_cases hi : i < 0
  · rw [if_pos hi] at hc
    rcases List.mem_cons.mp hc with rfl | hm
    · decide
    · exact digit_lt_128 c (natToChars_all_digit _ c hm)
  · rw [if_neg hi] at hc
    exact digit_lt_128 c (natToChars_all_digit _ c hc)

mutual

theorem asciiJ : ∀ j : Json, plainJ j = true → ∀ c ∈ encJ j, c.toNat < 128
  | .null => by intro hp; rw [plainJ] at hp; simp at hp
  | .bool b => by intro hp; rw [plainJ] at hp; simp at hp
  | .num i => by
    intro _ c hc
    rw [encJ] at hc
    exact intToChars_ascii i c hc
  | .str s => by
    intro hp c hc
    rw [plainJ] at hp
    have hall : ∀ x ∈ s, plainChar x = true := by
      simpa [List.all_eq_true] using hp
    rw [encJ, escapeChars_plain s hall] at hc
    rcases List.mem_cons.mp hc with rfl | hm
    · decide
    · rcases List.mem_append.mp hm with hm2 | hm2
      · have := plainChar_spec c (hall c hm2)
        omega
      · rw [List.mem_singleton] at hm2
        subst hm2
        decide
  | .arr a => by
    intro hp c hc
    rw [plainJ] at hp
    rw [encJ] at hc
    rcases List.mem_cons.mp hc with rfl | hm
    · decide
    · rcases List.mem_append.mp hm with hm2 | hm2
      · exact asciiA a hp c hm2
      · rw [List.mem_singleton] at hm2
        subst hm2
        decide
  | .obj ms => by
    intro hp c hc
    rw [plainJ] at hp
    rw [encJ] at hc
    rcases List.mem_cons.mp hc with rfl | hm
    · decide
    · rcases List.mem_append.mp hm with hm2 | hm2
      · exact asciiO ms hp c hm2
      · rw [List.mem_singleton] at hm2
        subst hm2
        decide

theorem asciiA : ∀ a : JsonArr, plainA a = true → ∀ c ∈ encA a, c.toNat < 128
  | .nil => by intro _ c hc; rw [encA] at hc; cases hc
  | .cons x .nil => by
    intro hp c hc
    rw [plainA] at hp
    rw [encA] at hc
    exact asciiJ x (Bool.and_eq_true_iff.mp hp).1 c hc
  | .cons x (JsonArr.cons y tl) => by
    intro hp c hc
    rw [plainA] at hp
    rw [encA] at hc
    rcases List.mem_append.mp hc with hm | hm
    · exact asciiJ x (Bool.and_eq_true_iff.mp hp).1 c hm
    · rcases List.mem_cons.mp hm with rfl | hm2
      · decide
      · exact asciiA (JsonArr.cons y tl) (Bool.and_eq_true_iff.mp hp).2 c hm2

theorem asciiO : ∀ ms : JsonObj, plainO ms = true → ∀ c ∈ encO ms, c.toNat < 128
  | .nil => by intro _ c hc; rw [encO] at hc; cases hc
  | .cons k v .nil => by
    intro hp c hc
    rw [plainO] at hp
    have h1 := Bool.and_eq_true_iff.mp hp
    have h2 := Bool.and_eq_true_iff.mp h1.1
    have hkall : ∀ x ∈ k, plainChar x = true := by
      simpa [List.all_eq_true] using h2.1
    rw [encO, escapeChars_plain k hkall] at hc
    rcases List.mem_append.mp hc with hm | hm
    · rcases List.mem_cons.mp hm with rfl | hm2
      · decide
      · rcases List.mem_append.mp hm2 with hm3 | hm3
        · have := plainChar_spec c (hkall c hm3)
          omega
        · rcases List.mem_cons.mp hm3 with rfl | hm4
          · decide
          · rw [List.mem_singleton] at hm4
            subst hm4
            decide
    · exact asciiJ v h2.2 c hm
  | .cons k v (JsonObj.cons k2 v2 tl) => by
    intro hp c hc
    rw [plainO] at hp
    have h1 := Bool.and_eq_true_iff.mp hp
    have h2 := Bool.and_eq_true_iff.mp h1.1
    have hkall : ∀ x ∈ k, plainChar x = true := by
      simpa [List.all_eq_true] using h2.1
    rw [encO, escapeChars_plain k hkall] at hc
    rcases List.mem_append.mp hc with hm | hm
    · rcases List.mem_append.mp hm with hm0 | hm0
      · rcases List.mem_cons.mp hm0 with rfl | hm2
        · decide
        · rcases List.mem_append.mp hm2 with hm3 | hm3
          · have := plainChar_spec c (hkall c hm3)
            omega
          · rcases List.mem_cons.mp hm3 with rfl | hm4
            · decide
            · rw [List.mem_singleton] at hm4
              subst hm4
              decide
      · exact asciiJ v h2.2 c hm0
    · rcases List.mem_cons.mp hm with rfl | hm2
      · decide
      · exact asciiO (JsonObj.cons k2 v2 tl) h1.2 c hm2

end

theorem base36_plain (c : Char) (h : base36Char c = true) : plainChar c = true := by
  have hb : (48 ≤ c.toNat ∧ c.toNat ≤ 57) ∨ (97 ≤ c.toNat ∧ c.toNat ≤ 122) := by
    simp only [base36Char, Bool.or_eq_true, Bool.and_eq_true,
      decide_eq_true_eq] at h
    rcases h with h | h
    · exact Or.inl (isDigit_toNat c h)
    · exact Or.inr h
  simp only [plainChar, Bool.and_eq_true, decide_eq_true_eq, bne_iff_ne, ne_eq]
  refine ⟨⟨⟨by omega, by omega⟩, ?_⟩, ?_⟩
  · exact char_ne_of_toNat_ne c '"' (by rw [show ('"').toNat = 34 from rfl]; omega)
  · exact char_ne_of_toNat_ne c '\\' (by rw [show ('\\').toNat = 92 from rfl]; omega)

theorem plain_bytes (b : List Nat) :
    plainA (JsonArr.ofList (b.map jnum)) = true := by
  induction b with
  | nil => rfl
  | cons x t ih =>
    rw [List.map_cons, JsonArr.ofList, plainA, ih]
    rfl

theorem envelope_plain (b : List Nat) (pk : List Char) (ts : Nat)
    (hpk : pk.all plainChar = true) :
    plainJ (sealEnvelope b pk ts) = true := by
  have h1 : (("algorithm".data).all plainChar) = true := by decide
  have h2 : (("publicKey".data).all plainChar) = true := by decide
  have h3 : (("originalSize".data).all plainChar) = true := by decide
  have h4 : (("timestamp".data).all plainChar) = true := by decide
  have h5 : (("encryptedChunks".data).all plainChar) = true := by decide
  have h6 : (("Seal-BFV".data).all plainChar) = true := by decide
  simp [sealEnvelope, plainJ, plainO, plainA, plain_bytes, hpk, h1, h2, h3, h4,
    h5, h6]

theorem lookupO_last5 (k1 k2 k3 k4 k5 : List Char) (v1 v2 v3 v4 v5 : Json) :
    lookupO (JsonObj.cons k1 v1
      (JsonObj.cons k2 v2
        (JsonObj.cons k3 v3
          (JsonObj.cons k4 v4
            (JsonObj.cons k5 v5 JsonObj.nil))))) k5 = some v5 := by
  simp [lookupO]

theorem toList_ofList (l : List Json) : (JsonArr.ofList l).toList = l := by
  induction l with
  | nil => rfl
  | cons x t ih => rw [JsonArr.ofList, JsonArr.toList, ih]

theorem map_toUint8_bytes (b : List Nat) (hb : ∀ x ∈ b, x < 256) :
    ((b.map jnum).map toUint8) = b := by
  induction b with
  | nil => rfl
  | cons x t ih =>
    have hx := hb x (List.mem_cons_self x t)
    have hcell : toUint8 (jnum x) = x := by
      rw [jnum, toUint8]
      simp only [Int.ofNat_eq_coe]
      omega
    rw [List.map_cons, List.map_cons, hcell,
      ih fun y hy => hb y (List.mem_cons_of_mem x hy)]

/-- The mock envelope decrypts back to the exact original bytes. -/
theorem _decryptData_encryptData (b : List Nat) (pk : List Char) (ts : Nat)
    (hb : ∀ x ∈ b, x < 256) (hpk : pk.all plainChar = true) :
    _decryptData (_encryptData b pk ts) = .ok b := by
  rw [_encryptData, _decryptData,
    utf8_ascii_rt _ (asciiJ _ (envelope_plain b pk ts hpk)),
    jsonParse_enc _ (envelope_plain b pk ts hpk)]
  rw [show sealEnvelope b pk ts = Json.obj
    (JsonObj.cons ("algorithm".data) (Json.str ("Seal-BFV".data))
      (JsonObj.cons ("publicKey".data) (Json.str pk)
        (JsonObj.cons ("originalSize".data) (Json.num (b.length : Int))
          (JsonObj.cons ("timestamp".data) (Json.num (ts : Int))
            (JsonObj.cons ("encryptedChunks".data)
              (Json.arr (JsonArr.cons
                (Json.arr (JsonArr.ofList (b.map jnum)))
                JsonArr.nil))
              JsonObj.nil))))) from by rw [sealEnvelope]]
  simp only [jsProp, lookupO_last5, jsIndex0, JsonArr.headO, jsNewUint8Array,
    toList_ofList, map_toUint8_bytes b hb]

/-- C1: for every byte sequence `b` (elements < 256, as any `Uint8Array` yields) —
including the empty sequence, ASCII text, and multi-byte UTF-8 content with
4-byte code points — if the adapter's `encryptFile` succeeds on a file whose
contents read as `b`, then `decryptFile` on the returned `encryptedData`,
with any secret-key string, succeeds and its `decryptedData` equals `b`
exactly.  `keyId` ranges over the base-36 strings `_generateKeyPair` can
build. -/
theorem c1_encrypt_decrypt_roundtrip (isReady : Bool) (b : List Nat)
    (keyId : List Char) (ts : Nat) (k : String)
    (hb : ∀ x ∈ b, x < 256) (hkey : keyId.all base36Char = true)
    (hsucc : (encryptFile isReady (.ok b) keyId ts).success = true) :
    ∃ d, (encryptFile isReady (.ok b) keyId ts).encryptedData = some d ∧
      (decryptFile isReady d k).success = true ∧
      (decryptFile isReady d k).decryptedData = some b := by
  cases isReady with
  | false => simp [encryptFile] at hsucc
  | true =>
    have hpk : ((("seal_public_".data) ++ keyId).all plainChar) = true := by
      rw [List.all_append]
      have h1 : (("seal_public_".data).all plainChar) = true := by decide
      have h2 : keyId.all plainChar = true := by
        rw [List.all_eq_true] at hkey ⊢
        exact fun c hc => base36_plain c (hkey c hc)
      rw [h1, h2]
      rfl
    have hdec := _decryptData_encryptData b (("seal_public_".data) ++ keyId) ts hb hpk
    refine ⟨_encryptData b (("seal_public_".data) ++ keyId) ts, ?_, ?_, ?_⟩
    · rw [encryptFile, if_neg (by decide : ¬(!true) = true)]
      rfl
    · rw [decryptFile, if_neg (by decide : ¬(!true) = true), hdec]
    · rw [decryptFile, if_neg (by decide : ¬(!true) = true), hdec]

/-- Witness for C1 at a concrete input: the UTF-8 bytes of a 4-byte code
point (U+1D11E), a concrete base-36 key id, and an arbitrary secret key. -/
theorem c1_encrypt_decrypt_roundtrip_witness :
    (∀ x ∈ ([240, 157, 132, 158] : List Nat), x < 256) ∧
    (("k3x9".data).all base36Char = true) ∧
    ∃ d, (encryptFile true (.ok [240, 157, 132, 158])
        ("k3x9".data) 7).encryptedData = some d ∧
      (decryptFile true d "any-secret").success = true ∧
      (decryptFile true d "any-secret").decryptedData =
        some [240, 157, 132, 158] :=
  ⟨by decide, by decide,
    c1_encrypt_decrypt_roundtrip true [240, 157, 132, 158] ("k3x9".data) 7
      "any-secret" (by decide) (by decide) (by decide)⟩

/-- C6: `encryptFile` and `decryptFile` never throw to their callers — both
are total functions into result records in this model (every JS operation
that can throw is routed through `Except` and caught) — and every failure is
reported as a result with `success := false` and an error string present. -/
theorem c6_result_error_discipline :
    (∀ (isReady : Bool) (fileRead : Except String (List Nat))
        (keyId : List Char) (now : Nat),
      (encryptFile isReady fileRead keyId now).success = true ∨
        ((encryptFile isReady fileRead keyId now).success = false ∧
          (encryptFile isReady fileRead keyId now).error.isSome = true)) ∧
    (∀ (isReady : Bool) (d : List Nat) (k : String),
      (decryptFile isReady d k).success = true ∨
        ((decryptFile isReady d k).success = false ∧
          (decryptFile isReady d k).error.isSome = true)) := by
  constructor
  · intro isReady fileRead keyId now
    cases isReady
    · right
      simp [encryptFile]
    · cases fileRead with
      | error e =>
        right
        simp [encryptFile]
      | ok b =>
        left
        simp [encryptFile]
  · intro isReady d k
    cases isReady
    · right
      simp [decryptFile]
    · cases h : _decryptData d with
      | error e =>
        right
        simp [decryptFile, h]
      | ok v =>
        left
        simp [decryptFile, h]

/-- C7: the output of `decryptFile` is independent of the secret key: the
source declares the parameter `_secretKey` and never reads it, so the two
results agree definitionally for every ciphertext and every pair of keys. -/
theorem c7_decrypt_key_independent (isReady : Bool) (d : List Nat)
    (k1 k2 : String) :
    decryptFile isReady d k1 = decryptFile isReady d k2 := rfl

/-- Counterexample to C2: a rule with `maxAccessCount = 0` should be invalid
by the claim (`maxAccessCount ≤ 0`), but JS truthiness skips the check when
the value is `0`, so `validateAccessRule` accepts it. -/
theorem c2_counterexample :
    claimC2Invalid (fun _ => false)
      { conditionType := "time", maxAccessCount := some 0 } ∧
    (validateAccessRule (fun _ => false)
      { conditionType := "time", maxAccessCount := some 0 }).valid = true := by
  constructor
  · right; right; right; right; right; right; left
    exact ⟨0, rfl, le_refl 0⟩
  · decide

theorem listFirstBad_some (p : String → Bool) (o : Option (List String))
    (x : String) (h : listFirstBad p o = some x) :
    x ∈ o.getD [] ∧ p x = false := by
  match o with
  | none => simp [listFirstBad] at h
  | some l =>
    rw [listFirstBad] at h
    by_cases hl : 0 < l.length
    · rw [if_pos hl] at h
      refine ⟨List.mem_of_find?_eq_some h, ?_⟩
      have := List.find?_some h
      simpa using this
    · rw [if_neg hl] at h
      cases h

theorem listFirstBad_none (p : String → Bool) (o : Option (List String))
    (h : listFirstBad p o = none) :
    ∀ x ∈ o.getD [], p x = true := by
  match o with
  | none => intro x hx; simp at hx
  | some l =>
    rw [listFirstBad] at h
    by_cases hl : 0 < l.length
    · rw [if_pos hl] at h
      intro x hx
      have := List.find?_eq_none.mp h x hx
      simpa using this
    · rw [if_neg hl] at h
      intro x hx
      have : l = [] := by
        cases l with
        | nil => rfl
        | cons a t => simp at hl
      subst this
      simp at hx

/-- C2 (amended): `validateAccessRule` returns `valid := false` exactly for:
unknown condition type; a malformed email, address, or SuiNS name in the
corresponding present list; both time endpoints set *and non-zero* with
start ≥ end; a *negative* `maxAccessDuration` or `maxAccessCount` (zero is
falsy in JS, so the positivity checks skip it); or a hybrid rule with no
populated condition family (families follow the same truthiness). -/
theorem c2_validate_access_rule_characterization (v : String → Bool)
    (rule : AccessControlRule) :
    (validateAccessRule v rule).valid = false ↔ codeC2Invalid v rule := by
  rw [validateAccessRule]
  cases h1 : (["email", "wallet", "time", "hybrid"].contains
      rule.conditionType) with
  | false =>
    rw [if_pos (by decide)]
    constructor
    · intro _
      left
      intro hmem
      have h1e : List.elem rule.conditionType
          (["email", "wallet", "time", "hybrid"] : List String) = false := h1
      rw [List.elem_eq_true_of_mem hmem] at h1e
      cases h1e
    · intro _
      rfl
  | true =>
    rw [if_neg (by decide)]
    have hmemty : rule.conditionType ∈
        (["email", "wallet", "time", "hybrid"] : List String) :=
      List.mem_of_elem_eq_true h1
    cases hE : listFirstBad isValidEmail rule.allowedEmails with
    | some e =>
      obtain ⟨hmem, hbad⟩ := listFirstBad_some _ _ _ hE
      simp only [hE]
      constructor
      · intro _
        right; left
        exact ⟨e, hmem, hbad⟩
      · intro _
        trivial
    | none =>
      simp only [hE]
      cases hA : listFirstBad v rule.allowedAddresses with
      | some a =>
        obtain ⟨hmem, hbad⟩ := listFirstBad_some _ _ _ hA
        simp only [hA]
        constructor
        · intro _
          right; right; left
          exact ⟨a, hmem, hbad⟩
        · intro _
          trivial
      | none =>
        simp only [hA]
        cases hS : listFirstBad isValidSuiNS rule.allowedSuiNS with
        | some s =>
          obtain ⟨hmem, hbad⟩ := listFirstBad_some _ _ _ hS
          simp only [hS]
          constructor
          · intro _
            right; right; right; left
            exact ⟨s, hmem, hbad⟩
          · intro _
            trivial
        | none =>
          simp only [hS]
          by_cases hT : (truthyNum rule.accessStartTime &&
              truthyNum rule.accessEndTime &&
              decide (rule.accessEndTime.getD 0 ≤ rule.accessStartTime.getD 0))
              = true
          · rw [if_pos hT]
            constructor
            · intro _
              right; right; right; right; left
              simp only [Bool.and_eq_true, decide_eq_true_eq] at hT
              obtain ⟨⟨ht1, ht2⟩, hle⟩ := hT
              match hst : rule.accessStartTime with
              | none => rw [hst] at ht1; simp [truthyNum] at ht1
              | some st =>
                match hen : rule.accessEndTime with
                | none => rw [hen] at ht2; simp [truthyNum] at ht2
                | some en =>
                  rw [hst] at ht1 hle
                  rw [hen] at ht2 hle
                  simp only [truthyNum, bne_iff_ne, ne_eq,
                    decide_eq_true_eq] at ht1 ht2
                  refine ⟨st, en, rfl, rfl, by simpa using ht1,
                    by simpa using ht2, by simpa using hle⟩
            · intro _
              rfl
          · rw [if_neg hT]
            by_cases hD : (truthyNum rule.maxAccessDuration &&
                decide (rule.maxAccessDuration.getD 0 ≤ 0)) = true
            · rw [if_pos hD]
              constructor
              · intro _
                right; right; right; right; right; left
                simp only [Bool.and_eq_true, decide_eq_true_eq] at hD
                obtain ⟨hd1, hd2⟩ := hD
                match hdm : rule.maxAccessDuration with
                | none => rw [hdm] at hd1; simp [truthyNum] at hd1
                | some d =>
                  rw [hdm] at hd1 hd2
                  simp only [truthyNum, bne_iff_ne, ne_eq,
                    decide_eq_true_eq] at hd1
                  refine ⟨d, rfl, ?_⟩
                  have hd1' : d ≠ 0 := by simpa using hd1
                  have hd2' : d ≤ 0 := by simpa using hd2
                  omega
              · intro _
                rfl
            · rw [if_neg hD]
              by_cases hC : (truthyNum rule.maxAccessCount &&
                  decide (rule.maxAccessCount.getD 0 ≤ 0)) = true
              · rw [if_pos hC]
                constructor
                · intro _
                  right; right; right; right; right; right; left
                  simp only [Bool.and_eq_true, decide_eq_true_eq] at hC
                  obtain ⟨hc1, hc2⟩ := hC
                  match hcm : rule.maxAccessCount with
                  | none => rw [hcm] at hc1; simp [truthyNum] at hc1
                  | some c =>
                    rw [hcm] at hc1 hc2
                    simp only [truthyNum, bne_iff_ne, ne_eq,
                      decide_eq_true_eq] at hc1
                    refine ⟨c, rfl, ?_⟩
                    have hc1' : c ≠ 0 := by simpa using hc1
                    have hc2' : c ≤ 0 := by simpa using hc2
                    omega
                · intro _
                  rfl
              · rw [if_neg hC]
                by_cases hH : (rule.conditionType == "hybrid" &&
                    !hasEmailB rule && !hasAddressB rule && !hasTimeB rule)
                    = true
                · rw [if_pos hH]
                  constructor
                  · intro _
                    right; right; right; right; right; right; right
                    simp only [Bool.and_eq_true, beq_iff_eq,
                      Bool.not_eq_true'] at hH
                    exact ⟨hH.1.1.1, hH.1.1.2, hH.1.2, hH.2⟩
                  · intro _
                    rfl
                · rw [if_neg hH]
                  constructor
                  · intro habs
                    cases habs
                  · intro hinv
                    exfalso
                    rcases hinv with hx | hx | hx | hx | hx | hx | hx | hx
                    · exact hx hmemty
                    · obtain ⟨e, hmem, hbad⟩ := hx
                      rw [listFirstBad_none _ _ hE e hmem] at hbad
                      cases hbad
                    · obtain ⟨a, hmem, hbad⟩ := hx
                      rw [listFirstBad_none _ _ hA a hmem] at hbad
                      cases hbad
                    · obtain ⟨s, hmem, hbad⟩ := hx
                      rw [listFirstBad_none _ _ hS s hmem] at hbad
                      cases hbad
                    · obtain ⟨st, en, hst, hen, hne1, hne2, hle⟩ := hx
                      apply hT
                      rw [hst, hen]
                      simp only [truthyNum, Bool.and_eq_true, bne_iff_ne,
                        ne_eq, decide_eq_true_eq, Option.getD_some]
                      exact ⟨⟨by simpa using hne1, by simpa using hne2⟩, hle⟩
                    · obtain ⟨d, hdm, hdneg⟩ := hx
                      apply hD
                      rw [hdm]
                      simp only [truthyNum, Bool.and_eq_true, bne_iff_ne,
                        ne_eq, decide_eq_true_eq, Option.getD_some]
                      constructor
                      · omega
                      · omega
                    · obtain ⟨c, hcm, hcneg⟩ := hx
                      apply hC
                      rw [hcm]
                      simp only [truthyNum, Bool.and_eq_true, bne_iff_ne,
                        ne_eq, decide_eq_true_eq, Option.getD_some]
                      constructor
                      · omega
                      · omega
                    · obtain ⟨hty, hem, had, htm⟩ := hx
                      apply hH
                      simp only [Bool.and_eq_true, beq_iff_eq,
                        Bool.not_eq_true']
                      exact ⟨⟨⟨hty, hem⟩, had⟩, htm⟩

theorem count_one_of_nodup_mem {α : Type} [BEq α] [LawfulBEq α] (l : List α)
    (a : α) (hnd : l.Nodup) (hm : a ∈ l) : l.count a = 1 := by
  induction l with
  | nil => simp at hm
  | cons x t ih =>
    rw [List.count_cons]
    rcases List.mem_cons.mp hm with rfl | hmt
    · have hx : a ∉ t := (List.nodup_cons.mp hnd).1
      rw [List.count_eq_zero.mpr hx]
      simp
    · have hne : ¬a = x := by
        intro he
        subst he
        exact (List.nodup_cons.mp hnd).1 hmt
      rw [ih (List.nodup_cons.mp hnd).2 hmt]
      simp
      exact fun he => hne he.symm

theorem not_mem_of_not_contains {α : Type} [BEq α] [LawfulBEq α]
    (l : List α) (a : α) (h : ¬l.contains a = true) : a ∉ l :=
  fun hm => h (List.elem_eq_true_of_mem hm)

theorem processCell_emails_sub (v : String → Bool) (i : Nat)
    (acc : ParsedBulkData) (cell : List Char) (t : List Char)
    (hmem : t ∈ acc.emails) : t ∈ (processCell v i acc cell).emails := by
  simp only [processCell]
  split_ifs <;> simp [hmem]

theorem processCell_emails_nodup (v : String → Bool) (i : Nat)
    (acc : ParsedBulkData) (cell : List Char) (h : acc.emails.Nodup) :
    (processCell v i acc cell).emails.Nodup := by
  simp only [processCell]
  split_ifs with h1 h2 h3 h4 h5 h6 h7
  · exact h
  · exact h
  · have hnm := not_mem_of_not_contains _ _ h3
    simp [List.nodup_append, h, hnm]
  · exact h
  · exact h
  · exact h
  · exact h
  · exact h

theorem processCell_emails_add (v : String → Bool) (i : Nat)
    (acc : ParsedBulkData) (cell : List Char) (t : List Char)
    (ht : jsTrim cell = t) (hne : t ≠ [])
    (hcls : isValidEmailChars t = true) :
    t ∈ (processCell v i acc cell).emails := by
  simp only [processCell]
  rw [ht, if_neg (by simp [List.isEmpty_iff, hne]), if_pos hcls]
  by_cases hc : acc.emails.contains t = true
  · rw [if_pos hc]
    exact List.mem_of_elem_eq_true hc
  · rw [if_neg hc]
    simp

theorem processCell_addresses_sub (v : String → Bool) (i : Nat)
    (acc : ParsedBulkData) (cell : List Char) (t : List Char)
    (hmem : t ∈ acc.addresses) : t ∈ (processCell v i acc cell).addresses := by
  simp only [processCell]
  split_ifs <;> simp [hmem]

theorem processCell_addresses_nodup (v : String → Bool) (i : Nat)
    (acc : ParsedBulkData) (cell : List Char) (h : acc.addresses.Nodup) :
    (processCell v i acc cell).addresses.Nodup := by
  simp only [processCell]
  split_ifs with h1 h2 h3 h4 h5 h6 h7
  · exact h
  · exact h
  · exact h
  · exact h
  · have hnm := not_mem_of_not_contains _ _ h5
    simp [List.nodup_append, h, hnm]
  · exact h
  · exact h
  · exact h

theorem processCell_addresses_add (v : String → Bool) (i : Nat)
    (acc : ParsedBulkData) (cell : List Char) (t : List Char)
    (ht : jsTrim cell = t) (hne : t ≠ [])
    (hmail : isValidEmailChars t = false) (hv : v (String.mk t) = true) :
    t ∈ (processCell v i acc cell).addresses := by
  simp only [processCell]
  rw [ht, if_neg (by simp [List.isEmpty_iff, hne]),
    if_neg (by simp [hmail]), if_pos hv]
  by_cases hc : acc.addresses.contains t = true
  · rw [if_pos hc]
    exact List.mem_of_elem_eq_true hc
  · rw [if_neg hc]
    simp

theorem processCell_suins_sub (v : String → Bool) (i : Nat)
    (acc : ParsedBulkData) (cell : List Char) (t : List Char)
    (hmem : t ∈ acc.suiNSNames) : t ∈ (processCell v i acc cell).suiNSNames := by
  simp only [processCell]
  split_ifs <;> simp [hmem]

theorem processCell_suins_nodup (v : String → Bool) (i : Nat)
    (acc : ParsedBulkData) (cell : List Char) (h : acc.suiNSNames.Nodup) :
    (processCell v i acc cell).suiNSNames.Nodup := by
  simp only [processCell]
  split_ifs with h1 h2 h3 h4 h5 h6 h7
  · exact h
  · exact h
  · exact h
  · exact h
  · exact h
  · exact h
  · have hnm := not_mem_of_not_contains _ _ h7
    simp [List.nodup_append, h, hnm]
  · exact h

theorem processCell_suins_add (v : String → Bool) (i : Nat)
    (acc : ParsedBulkData) (cell : List Char) (t : List Char)
    (ht : jsTrim cell = t) (hne : t ≠ [])
    (hmail : isValidEmailChars t = false) (hv : v (String.mk t) = false)
    (hsn : isValidSuiNSChars t = true) :
    t ∈ (processCell v i acc cell).suiNSNames := by
  simp only [processCell]
  rw [ht, if_neg (by simp [List.isEmpty_iff, hne]),
    if_neg (by simp [hmail]), if_neg (by simp [hv]), if_pos hsn]
  by_cases hc : acc.suiNSNames.contains t = true
  · rw [if_pos hc]
    exact List.mem_of_elem_eq_true hc
  · rw [if_neg hc]
    simp

theorem processCells_pres (v : String → Bool) (P : ParsedBulkData → Prop)
    (hP : ∀ i acc cell, P acc → P (processCell v i acc cell)) :
    ∀ (i : Nat) (cells : List (List Char)) (acc : ParsedBulkData),
      P acc → P (processCells v i cells acc) := by
  intro i cells
  induction cells with
  | nil => intro acc h; exact h
  | cons c cs ih =>
    intro acc h
    rw [processCells]
    exact ih _ (hP i acc c h)

theorem processRows_pres (v : String → Bool) (P : ParsedBulkData → Prop)
    (hP : ∀ i acc cell, P acc → P (processCell v i acc cell)) :
    ∀ (rows : List (List (List Char))) (i : Nat) (acc : ParsedBulkData),
      P acc → P (processRows v rows i acc) := by
  intro rows
  induction rows with
  | nil => intro i acc h; exact h
  | cons r rs ih =>
    intro i acc h
    rw [processRows]
    exact ih _ _ (processCells_pres v P hP i r acc h)

theorem processCells_reach (v : String → Bool) (P : ParsedBulkData → Prop)
    (hP : ∀ i acc cell, P acc → P (processCell v i acc cell))
    (t : List Char)
    (hadd : ∀ i acc cell, jsTrim cell = t → P (processCell v i acc cell)) :
    ∀ (i : Nat) (cells : List (List Char)) (acc : ParsedBulkData),
      (∃ c ∈ cells, jsTrim c = t) → P (processCells v i cells acc) := by
  intro i cells
  induction cells with
  | nil =>
    rintro acc ⟨c, hc, _⟩
    cases hc
  | cons c cs ih =>
    rintro acc ⟨c0, hc0, htr⟩
    rw [processCells]
    rcases List.mem_cons.mp hc0 with rfl | hmem
    · exact processCells_pres v P hP i cs _ (hadd i acc c0 htr)
    · exact ih _ ⟨c0, hmem, htr⟩

theorem processRows_reach (v : String → Bool) (P : ParsedBulkData → Prop)
    (hP : ∀ i acc cell, P acc → P (processCell v i acc cell))
    (t : List Char)
    (hadd : ∀ i acc cell, jsTrim cell = t → P (processCell v i acc cell)) :
    ∀ (rows : List (List (List Char))) (i : Nat) (acc : ParsedBulkData),
      (∃ r ∈ rows, ∃ c ∈ r, jsTrim c = t) →
      P (processRows v rows i acc) := by
  intro rows
  induction rows with
  | nil =>
    rintro i acc ⟨r, hr, _⟩
    cases hr
  | cons r rs ih =>
    rintro i acc ⟨r0, hr0, hc⟩
    rw [processRows]
    rcases List.mem_cons.mp hr0 with rfl | hmem
    · exact processRows_pres v P hP rs _ _ (processCells_reach v P hP t hadd i r0 acc hc)
    · exact ih _ _ ⟨r0, hmem, hc⟩

/-- C8: if the same token appears (as the trimmed content) in two or more
cells of the CSV input, the corresponding output array of `parseBulkData`
holds exactly one entry for it.  The three conjuncts cover the three
classifications in the order the code tries them: a valid email; otherwise a
token the external Sui-address validator accepts (necessarily non-empty,
since empty cells are skipped); otherwise a valid SuiNS name. -/
theorem c8_bulk_dedup (v : String → Bool) (content : List Char)
    (t : List Char) (h2 : 2 ≤ (bulkCells content).count t) :
    (isValidEmailChars t = true →
      (parseBulkData v content "csv").emails.count t = 1) ∧
    (t ≠ [] → isValidEmailChars t = false → v (String.mk t) = true →
      (parseBulkData v content "csv").addresses.count t = 1) ∧
    (isValidEmailChars t = false → v (String.mk t) = false →
      isValidSuiNSChars t = true →
      (parseBulkData v content "csv").suiNSNames.count t = 1) := by
  have hex : ∃ r ∈ rowsOf content, ∃ c ∈ r, jsTrim c = t := by
    have hpos : 0 < (bulkCells content).count t := by omega
    have hmem : t ∈ bulkCells content := List.count_pos_iff.mp hpos
    rw [bulkCells] at hmem
    obtain ⟨c, hcf, hct⟩ := List.mem_map.mp hmem
    obtain ⟨r, hrm, hcm⟩ := List.mem_flatten.mp hcf
    exact ⟨r, hrm, c, hcm, hct⟩
  have hrows : parseBulkData v content "csv" =
      processRows v (rowsOf content) 0 {} := by
    rw [parseBulkData]
    simp
  refine ⟨?_, ?_, ?_⟩
  · intro hcls
    have hne : t ≠ [] := by
      intro he
      subst he
      rw [show isValidEmailChars [] = false from by decide] at hcls
      cases hcls
    rw [hrows]
    refine count_one_of_nodup_mem _ _ ?_ ?_
    · exact processRows_pres v (fun a => a.emails.Nodup)
        (fun i acc cell h => processCell_emails_nodup v i acc cell h)
        (rowsOf content) 0 {} (by simp)
    · exact processRows_reach v (fun a => t ∈ a.emails)
        (fun i acc cell h => processCell_emails_sub v i acc cell t h) t
        (fun i acc cell ht => processCell_emails_add v i acc cell t ht hne hcls)
        (rowsOf content) 0 {} hex
  · intro hne hmail hv
    rw [hrows]
    refine count_one_of_nodup_mem _ _ ?_ ?_
    · exact processRows_pres v (fun a => a.addresses.Nodup)
        (fun i acc cell h => processCell_addresses_nodup v i acc cell h)
        (rowsOf content) 0 {} (by simp)
    · exact processRows_reach v (fun a => t ∈ a.addresses)
        (fun i acc cell h => processCell_addresses_sub v i acc cell t h) t
        (fun i acc cell ht =>
          processCell_addresses_add v i acc cell t ht hne hmail hv)
        (rowsOf content) 0 {} hex
  · intro hmail hv hsn
    have hne : t ≠ [] := by
      intro he
      subst he
      rw [show isValidSuiNSChars [] = false from by decide] at hsn
      cases hsn
    rw [hrows]
    refine count_one_of_nodup_mem _ _ ?_ ?_
    · exact processRows_pres v (fun a => a.suiNSNames.Nodup)
        (fun i acc cell h => processCell_suins_nodup v i acc cell h)
        (rowsOf content) 0 {} (by simp)
    · exact processRows_reach v (fun a => t ∈ a.suiNSNames)
        (fun i acc cell h => processCell_suins_sub v i acc cell t h) t
        (fun i acc cell ht =>
          processCell_suins_add v i acc cell t ht hne hmail hv hsn)
        (rowsOf content) 0 {} hex

/-- Witness for C8: the same email twice in one CSV row yields exactly one
entry. -/
theorem c8_bulk_dedup_witness :
    2 ≤ (bulkCells ("a@b.c,a@b.c".data)).count ("a@b.c".data) ∧
    (parseBulkData (fun _ => false) ("a@b.c,a@b.c".data) "csv").emails.count
      ("a@b.c".data) = 1 :=
  ⟨by decide,
    (c8_bulk_dedup (fun _ => false) ("a@b.c,a@b.c".data) ("a@b.c".data)
      (by decide)).1 (by decide)⟩

/-- C4: with `useTestMode = false` and a `null` token, `clearUserFiles` and
`deleteFile` fail locally — whatever the network would have answered, the
result is `success = false` with a message containing
"Authentication required", and no fetch is performed (the recorded endpoint
is `none`). -/
theorem c4_auth_gate_no_fetch :
    ∀ (fetch : SimpleFetch) (cid : String),
      (clearUserFiles none false fetch).1.success = false ∧
      hasSub ("Authentication required".data)
        ((clearUserFiles none false fetch).1.message.data) = true ∧
      (clearUserFiles none false fetch).2 = none ∧
      (deleteFile cid none false fetch).1.success = false ∧
      hasSub ("Authentication required".data)
        ((deleteFile cid none false fetch).1.message.data) = true ∧
      (deleteFile cid none false fetch).2 = none := by
  intro fetch cid
  refine ⟨rfl, ?_, rfl, rfl, ?_, rfl⟩
  · show hasSub ("Authentication required".data)
      ("Authentication required to delete files".data) = true
    decide
  · show hasSub ("Authentication required".data)
      ("Authentication required to delete file".data) = true
    decide

/-- C5: on a 2xx response whose body is
`c5Body`, `getUserFiles` returns `success = true` and exactly one
`FileMetadata`, with `cid = "x"` (from `fileCid`), `filename = "a.txt"`
(from `name`), `fileSize = 10` (from `size`), and `isOwner = true`;
`uploadTimestamp` falls back to `Date.now()` and `uploader` to `"user"`. -/
theorem c5_get_user_files_normalization (token : Option String)
    (useTestMode : Bool) (now : Int) :
    getUserFiles token useTestMode (.resp true (some c5Body)) now =
      { success := true
        data := ⟨[{ cid := some (.str ("x".data))
                    filename := some (.str ("a.txt".data))
                    fileSize := some (.num 10)
                    uploadTimestamp := some (.num now)
                    uploader := some (.str ("user".data))
                    isOwner := true
                    contentType := none
                    isEncrypted := none
                    encryptionKeys := none }]⟩ } := rfl

/-- C9: `getUserFiles` is total (every throwing step inside the `try` is
caught and becomes the failure response), on every failure `data.files` is
the empty list, and each of the three failure paths — fetch rejection,
non-2xx status, normalized body not an array — indeed yields
`success = false`. -/
theorem c9_get_user_files_total (token : Option String) (useTestMode : Bool)
    (now : Int) :
    (∀ fetch, (getUserFiles token useTestMode fetch now).success = false →
      (getUserFiles token useTestMode fetch now).data.files = []) ∧
    (∀ m, (getUserFiles token useTestMode (.reject m) now).success = false) ∧
    (∀ body,
      (getUserFiles token useTestMode (.resp false body) now).success = false) ∧
    (∀ j v, normalizeBackendFiles j = .ok v → v.isArr = false →
      (getUserFiles token useTestMode (.resp true (some j)) now).success
        = false) := by
  refine ⟨?_, ?_, ?_, ?_⟩
  · intro fetch
    match fetch with
    | .reject m => intro _; rfl
    | .resp ok body =>
      match body with
      | none => intro _; rfl
      | some data =>
        cases ok with
        | false => intro _; rfl
        | true =>
          rw [getUserFiles]
          simp only [Bool.not_true, if_false, Bool.false_eq_true]
          cases hn : normalizeBackendFiles data with
          | error e => intro _; rfl
          | ok backendFiles =>
            cases backendFiles with
            | arr a =>
              simp only []
              cases hm : (JsonArr.toList a).mapM (formatFile now) with
              | error e => intro _; rfl
              | ok fs => intro h; simp at h
            | null => intro _; rfl
            | bool b => intro _; rfl
            | num i => intro _; rfl
            | str s => intro _; rfl
            | obj ms => intro _; rfl
  · intro m; rfl
  · intro body; cases body <;> rfl
  · intro j v hn hv
    rw [getUserFiles]
    simp only [Bool.not_true, if_false, hn, Bool.false_eq_true]
    match v, hv with
    | .null, _ | .bool _, _ | .num _, _ | .str _, _ | .obj _, _ => rfl

/-- C9 witness: a rejected fetch produces a failure whose `data.files` is
the empty list. -/
theorem c9_get_user_files_total_witness :
    (getUserFiles none false (.reject "network error") 0).data.files = [] :=
  (c9_get_user_files_total none false 0).1 (.reject "network error") rfl

theorem leadsWith_iff (pat : List Char) :
    ∀ s, leadsWith pat s = true ↔ ∃ r, s = pat ++ r := by
  induction pat with
  | nil =>
    intro s
    constructor
    · intro _; exact ⟨s, rfl⟩
    · intro _; rfl
  | cons p ps ih =>
    intro s
    cases s with
    | nil =>
      constructor
      · intro h; exact absurd h (by rw [leadsWith]; simp)
      · rintro ⟨r, h⟩; exact absurd h (by simp)
    | cons c cs =>
      rw [leadsWith]
      simp only [Bool.and_eq_true, beq_iff_eq, ih cs]
      constructor
      · rintro ⟨rfl, r, rfl⟩; exact ⟨r, rfl⟩
      · rintro ⟨r, h⟩
        rw [List.cons_append] at h
        injection h with h1 h2
        exact ⟨h1.symm, r, h2⟩

theorem afterFirst_some (pat : List Char) :
    ∀ s t, afterFirst pat s = some t →
      ∃ pre, s = pre ++ pat ++ t ∧
        ∀ p q, s = p ++ pat ++ q → pre.length ≤ p.length := by
  intro s
  induction s with
  | nil =>
    intro t h
    rw [afterFirst] at h
    by_cases h1 : leadsWith pat [] = true
    · rw [if_pos h1] at h
      injection h with ht
      obtain ⟨r, hr⟩ := (leadsWith_iff pat []).mp h1
      obtain ⟨hp, hrr⟩ := List.append_eq_nil.mp hr.symm
      refine ⟨[], ?_, ?_⟩
      · rw [hp, ← ht, List.drop_nil]
        rfl
      · intro p q _; exact Nat.zero_le _
    · rw [if_neg h1] at h
      exact Option.noConfusion h
  | cons c cs ih =>
    intro t h
    rw [afterFirst] at h
    by_cases h1 : leadsWith pat (c :: cs) = true
    · rw [if_pos h1] at h
      injection h with ht
      obtain ⟨r, hr⟩ := (leadsWith_iff pat (c :: cs)).mp h1
      refine ⟨[], ?_, ?_⟩
      · have hdrop : (c :: cs).drop pat.length = r := by
          rw [hr]; exact List.drop_left pat r
        rw [List.nil_append, hr, ← ht, hdrop]
      · intro p q _; exact Nat.zero_le _
    · rw [if_neg h1] at h
      obtain ⟨pre, hpre, hmin⟩ := ih t h
      refine ⟨c :: pre, ?_, ?_⟩
      · rw [hpre]; rfl
      · intro p q hpq
        cases p with
        | nil =>
          exact absurd ((leadsWith_iff pat (c :: cs)).mpr ⟨q, hpq⟩) h1
        | cons c2 p2 =>
          simp only [List.cons_append] at hpq
          injection hpq with _ h2
          simp only [List.length_cons]
          exact Nat.succ_le_succ (hmin p2 q h2)

theorem afterFirst_none (pat : List Char) :
    ∀ s, afterFirst pat s = none → ∀ p q, s ≠ p ++ pat ++ q := by
  intro s
  induction s with
  | nil =>
    intro h p q hpq
    rw [afterFirst] at h
    by_cases h1 : leadsWith pat [] = true
    · rw [if_pos h1] at h; exact Option.noConfusion h
    · apply h1
      obtain ⟨hp, hq⟩ := List.append_eq_nil.mp hpq.symm
      obtain ⟨_, hpat⟩ := List.append_eq_nil.mp hp
      rw [hpat]; rfl
  | cons c cs ih =>
    intro h p q hpq
    rw [afterFirst] at h
    by_cases h1 : leadsWith pat (c :: cs) = true
    · rw [if_pos h1] at h; exact Option.noConfusion h
    · rw [if_neg h1] at h
      cases p with
      | nil => exact h1 ((leadsWith_iff pat (c :: cs)).mpr ⟨q, hpq⟩)
      | cons c2 p2 =>
        simp only [List.cons_append] at hpq
        injection hpq with _ h2
        exact ih h p2 q h2

theorem lastIdxOf_none (c : Char) : ∀ l, lastIdxOf c l = none → c ∉ l := by
  intro l
  induction l with
  | nil => intro _ hm; exact absurd hm (List.not_mem_nil c)
  | cons x t ih =>
    intro h hm
    rw [lastIdxOf] at h
    cases ht : lastIdxOf c t with
    | some i => rw [ht] at h; exact Option.noConfusion h
    | none =>
      rw [ht] at h
      by_cases hx : (x == c) = true
      · rw [if_pos hx] at h; exact Option.noConfusion h
      · cases List.mem_cons.mp hm with
        | inl h2 => exact hx (beq_iff_eq.mpr h2.symm)
        | inr h2 => exact ih ht h2

theorem lastIdxOf_some (c : Char) :
    ∀ l i, lastIdxOf c l = some i →
      ∃ a b, l = a ++ c :: b ∧ a.length = i ∧ c ∉ b := by
  intro l
  induction l with
  | nil => intro i h; exact Option.noConfusion h
  | cons x t ih =>
    intro i h
    rw [lastIdxOf] at h
    cases ht : lastIdxOf c t with
    | some j =>
      rw [ht] at h
      injection h with hij
      obtain ⟨a, b, hab, hlen, hnb⟩ := ih j ht
      refine ⟨x :: a, b, ?_, ?_, hnb⟩
      · rw [hab]; rfl
      · rw [List.length_cons, hlen]; exact hij
    | none =>
      rw [ht] at h
      by_cases hx : (x == c) = true
      · rw [if_pos hx] at h
        injection h with hi
        refine ⟨[], t, ?_, ?_, lastIdxOf_none c t ht⟩
        · rw [beq_iff_eq.mp hx]; rfl
        · rw [← hi]; rfl
      · rw [if_neg hx] at h; exact Option.noConfusion h

theorem afterFirst_suffix (pat s tail : List Char)
    (h : afterFirst pat s = some tail) :
    ∀ p q, s = p ++ pat ++ q → ∃ k, q = tail.drop k := by
  obtain ⟨pre, hpre, hmin⟩ := afterFirst_some pat s tail h
  intro p q hpq
  have hle : pre.length ≤ p.length := hmin p q hpq
  refine ⟨p.length - pre.length, ?_⟩
  have h1 : s.drop (pre.length + pat.length) = tail := by
    rw [hpre]
    exact List.drop_left' (by rw [List.length_append])
  have h2 : s.drop (p.length + pat.length) = q := by
    rw [hpq]
    exact List.drop_left' (by rw [List.length_append])
  calc q = s.drop (p.length + pat.length) := h2.symm
    _ = s.drop (pre.length + pat.length + (p.length - pre.length)) := by
        congr 1; omega
    _ = (s.drop (pre.length + pat.length)).drop (p.length - pre.length) :=
        (List.drop_drop (p.length - pre.length) (pre.length + pat.length)
          s).symm
    _ = tail.drop (p.length - pre.length) := by rw [h1]

theorem filenameCapture_some (s cap : List Char)
    (h : filenameCapture s = some cap) : fnameMatchSpec s cap := by
  unfold filenameCapture at h
  cases ha : afterFirst fnamePat s with
  | none => rw [ha] at h; exact Option.noConfusion h
  | some tail =>
    rw [ha] at h
    simp only [] at h
    cases hl : lastIdxOf '"' tail with
    | none => rw [hl] at h; exact Option.noConfusion h
    | some i =>
      rw [hl] at h
      simp only [] at h
      by_cases hi : 0 < i
      · rw [if_pos hi] at h
        injection h with hcap
        obtain ⟨pre, hpre, hmin⟩ := afterFirst_some fnamePat s tail ha
        obtain ⟨a, b, hab, hlen, hnb⟩ := lastIdxOf_some '"' tail i hl
        have hcapa : cap = a := by
          rw [← hcap, hab, ← hlen, List.take_left]
        constructor
        · rw [hcapa]
          intro hnil
          rw [hnil] at hlen
          simp only [List.length_nil] at hlen
          omega
        · refine ⟨pre, b, ?_, hmin, hnb⟩
          rw [hpre, hab, hcapa]
          simp only [List.append_assoc]
      · rw [if_neg hi] at h; exact Option.noConfusion h

theorem filenameCapture_none (s : List Char)
    (h : filenameCapture s = none) : ¬ fnameHasMatch s := by
  unfold filenameCapture at h
  rintro ⟨p, cap, rest, hcap, hs⟩
  cases ha : afterFirst fnamePat s with
  | none =>
    exact afterFirst_none fnamePat s ha p (cap ++ '"' :: rest)
      (by rw [hs]; exact List.append_assoc _ _ _)
  | some tail =>
    rw [ha] at h
    simp only [] at h
    obtain ⟨k, hk⟩ :=
      afterFirst_suffix fnamePat s tail ha p (cap ++ '"' :: rest)
        (by rw [hs]; exact List.append_assoc _ _ _)
    cases hl : lastIdxOf '"' tail with
    | none =>
      apply lastIdxOf_none '"' tail hl
      have hmem : ('"' : Char) ∈ cap ++ '"' :: rest := by simp
      rw [hk] at hmem
      exact List.mem_of_mem_drop hmem
    | some i =>
      rw [hl] at h
      simp only [] at h
      by_cases hi : 0 < i
      · rw [if_pos hi] at h; exact Option.noConfusion h
      · obtain ⟨a, b, hab, hlen, hnb⟩ := lastIdxOf_some '"' tail i hl
        have ha0 : a = [] := List.length_eq_zero.mp (by omega)
        rw [ha0, List.nil_append] at hab
        apply hnb
        cases k with
        | zero =>
          rw [List.drop_zero, hab] at hk
          cases cap with
          | nil => exact absurd rfl hcap
          | cons c0 cap2 =>
            rw [List.cons_append] at hk
            injection hk with h1 h2
            rw [← h2]; simp
        | succ k2 =>
          rw [hab, List.drop_succ_cons] at hk
          have hmem : ('"' : Char) ∈ cap ++ '"' :: rest := by simp
          rw [hk] at hmem
          exact List.mem_of_mem_drop hmem

/-- C10: on every successful shared-file download (HTTP ok): the call
succeeds; `isEncrypted` is `some true` exactly when the `X-File-Encrypted`
header is exactly the string `"true"`; with no `Content-Disposition` header
the filename defaults to `"shared-file"`; with the header present the
filename is the leftmost greedy capture of the regex when a full match
exists, and `"shared-file"` when none exists. -/
theorem c10_download_shared_file (shareId : String) (token : Option String)
    (hdrs : SharedHeaders) (bytes : List Nat) (errMsg : Option String) :
    (downloadSharedFile shareId token (.resp true hdrs bytes errMsg)).success
        = true ∧
    ((downloadSharedFile shareId token
        (.resp true hdrs bytes errMsg)).isEncrypted = some true ↔
      hdrs.xFileEncrypted = some "true") ∧
    (hdrs.contentDisposition = none →
      (downloadSharedFile shareId token
        (.resp true hdrs bytes errMsg)).filename = some "shared-file") ∧
    (∀ cd, hdrs.contentDisposition = some cd →
      (∃ cap, fnameMatchSpec cd.data cap ∧
        (downloadSharedFile shareId token
          (.resp true hdrs bytes errMsg)).filename = some (String.mk cap)) ∨
      (¬ fnameHasMatch cd.data ∧
        (downloadSharedFile shareId token
          (.resp true hdrs bytes errMsg)).filename = some "shared-file")) := by
  have hfn : (downloadSharedFile shareId token
      (.resp true hdrs bytes errMsg)).filename =
      some (match hdrs.contentDisposition with
        | none => "shared-file"
        | some cd =>
          match filenameCapture cd.data with
          | some cap => String.mk cap
          | none => "shared-file") := rfl
  refine ⟨rfl, ?_, ?_, ?_⟩
  · show some (hdrs.xFileEncrypted == some "true") = some true ↔
      hdrs.xFileEncrypted = some "true"
    simp [beq_iff_eq]
  · intro hcd
    rw [hfn, hcd]
  · intro cd hcd
    rw [hfn, hcd]
    simp only []
    cases hc : filenameCapture cd.data with
    | some cap =>
      exact Or.inl ⟨cap, filenameCapture_some cd.data cap hc, rfl⟩
    | none =>
      exact Or.inr ⟨filenameCapture_none cd.data hc, rfl⟩

/-- C10 witness: a concrete successful download carrying
`Content-Disposition: attachment; filename="a.txt"` (the hypothesis on the
header is discharged at it). -/
theorem c10_download_shared_file_witness :
    (∃ cap, fnameMatchSpec (String.data ("attachment; filename=\"a.txt\"")) cap ∧
      (downloadSharedFile ("s") none (.resp true
        ⟨some ("attachment; filename=\"a.txt\""), none, some ("true")⟩
        [] none)).filename = some (String.mk cap)) ∨
    (¬ fnameHasMatch (String.data ("attachment; filename=\"a.txt\"")) ∧
      (downloadSharedFile ("s") none (.resp true
        ⟨some ("attachment; filename=\"a.txt\""), none, some ("true")⟩
        [] none)).filename = some ("shared-file")) :=
  ((c10_download_shared_file ("s") none
    ⟨some ("attachment; filename=\"a.txt\""), none, some ("true")⟩
    [] none).2.2.2) ("attachment; filename=\"a.txt\"") rfl

/-- C3 counterexample: with the encryption adapter not ready
(`encReady = false`), `uploadSingleFile` does upload the original file with
no encryption data, but the result it returns can still have `isEncrypted`
set — a successful server response passes through unmodified, so a body
carrying `isEncrypted = true` reaches the caller. -/
theorem c3_counterexample :
    ∃ sent res,
      uploadSingleFile false true (some ("t")) ⟨"f.txt", [7]⟩ false true
        (.ok [7]) (String.data ("k3x9")) 0 (.resp true (.ok c3Body))
        = .ok (sent, res) ∧
      sent.hadEncryptionData = false ∧
      sent.formFile = ⟨"f.txt", [7]⟩ ∧
      Option.bind res.data (fun d => d.isEncrypted) = some true := by
  refine ⟨{ formFile := ⟨"f.txt", [7]⟩, endpointTest := false
            authHeader := some ("Bearer t"), hadEncryptionData := false },
          c3Body, rfl, rfl, rfl, rfl⟩

/-- C3 (amended): if the user is authenticated or in test mode, and the
encryption adapter is not ready or its `encryptFile` fails, then
`uploadSingleFile` reaches the upload call with the original attached file
and no encryption data; a failure result carries no `data` at all; and a
successful server response is returned unchanged — in particular the
client adds no `isEncrypted` of its own (whatever the result carries came
from the server body). -/
theorem c3_upload_unencrypted_fallback (useTestMode isAuthenticated : Bool)
    (token : Option String) (attached : FileModel) (encReady svcReady : Bool)
    (fileRead : Except String (List Nat)) (keyId : List Char) (now : Nat)
    (fetch : UploadFetch)
    (hauth : useTestMode = true ∨ isAuthenticated = true)
    (henc : encReady = false ∨
      (encryptFile svcReady fileRead keyId now).success = false) :
    ∃ sent res,
      uploadSingleFile useTestMode isAuthenticated token attached encReady
        svcReady fileRead keyId now fetch = .ok (sent, res) ∧
      sent.formFile = attached ∧
      sent.hadEncryptionData = false ∧
      (res.success = false → res.data = none) ∧
      (∀ ur, fetch = .resp true (.ok ur) → ur.success = true → res = ur) := by
  have hg : (!useTestMode && !isAuthenticated) = false := by
    rcases hauth with h | h <;> rw [h] <;> simp
  have hed : encryptionDataFor attached encReady svcReady fileRead keyId now
      = none := by
    rcases henc with he | he
    · rw [encryptionDataFor, he]; rfl
    · rw [encryptionDataFor]
      cases hr : encReady
      · rfl
      · simp [he]
  rw [uploadSingleFile, hg, hed]
  simp only [Bool.false_eq_true, if_false]
  cases fetch with
  | reject m =>
    exact ⟨_, _, rfl, rfl, rfl, fun _ => rfl,
      fun ur h => UploadFetch.noConfusion h⟩
  | resp ok body =>
    cases body with
    | error m =>
      refine ⟨_, _, rfl, rfl, rfl, fun _ => rfl, ?_⟩
      intro ur h _
      injection h with _ h2
      exact Except.noConfusion h2
    | ok ur =>
      cases ok with
      | false =>
        refine ⟨_, _, rfl, rfl, rfl, fun _ => rfl, ?_⟩
        intro ur2 h _
        injection h with h1 _
        exact Bool.noConfusion h1
      | true =>
        simp only [uploadFile, Bool.not_true, Bool.false_eq_true, if_false]
        cases hs : ur.success with
        | false =>
          refine ⟨_, _, rfl, rfl, rfl, fun _ => rfl, ?_⟩
          intro ur2 h hsucc
          injection h with _ h2
          injection h2 with h3
          rw [← h3, hs] at hsucc
          exact Bool.noConfusion hsucc
        | true =>
          refine ⟨_, _, rfl, rfl, rfl, ?_, ?_⟩
          · intro hfail
            rw [hs] at hfail
            exact Bool.noConfusion hfail
          · intro ur2 h _
            injection h with _ h2
            injection h2

/-- C3 witness for the amended theorem: authenticated user, adapter not
ready, server accepts — both hypotheses discharged concretely. -/
theorem c3_upload_unencrypted_fallback_witness :
    ∃ sent res,
      uploadSingleFile false true (some ("t")) ⟨"f.txt", [7]⟩ false true
        (.ok [7]) (String.data ("k")) 0
        (.resp true (.ok { success := true, data := some { fileCid := some ("c") } }))
        = .ok (sent, res) ∧
      sent.formFile = ⟨"f.txt", [7]⟩ ∧
      sent.hadEncryptionData = false ∧
      (res.success = false → res.data = none) ∧
      (∀ ur, (UploadFetch.resp true
          (.ok { success := true, data := some { fileCid := some ("c") } }))
          = .resp true (.ok ur) → ur.success = true → res = ur) :=
  c3_upload_unencrypted_fallback false true (some ("t")) ⟨"f.txt", [7]⟩ false
    true (.ok [7]) (String.data ("k")) 0
    (.resp true (.ok { success := true, data := some { fileCid := some ("c") } }))
    (Or.inr rfl) (Or.inl rfl)
